import Mathlib

/-!
# Verification of the oasis-cbor canonical CBOR encoder

Shallow embedding of `src/value/src/writer.rs`.  Byte buffers are `List Nat`
(each entry a byte value `< 256`), the output buffer of the Rust `Writer` is
threaded explicitly, and `Result<(), EncoderError>` becomes
`Option EncoderError` (`none` = `Ok(())`) paired with the final buffer.

The recursive `Writer::encode_cbor` is embedded with an explicit fuel
parameter (an artifact needed for termination only: the `Map` arm re-sorts
key/value pairs, hiding the structural descent from the termination checker).
`write_nested` instantiates the fuel at `height v + 1`, which is proved
sufficient below (`encodeC_fuel_eq`).
-/

namespace OasisCbor

/-- Possible errors from a serialization operation (from `writer.rs`). -/
inductive EncoderError where
  | TooMuchNesting
  | DuplicateMapKey
deriving DecidableEq, Repr

/-- Modelled from the spec: the `Value` tagged union from the out-of-scope
`values.rs` ("a tagged union with variants Unsigned-integer,
Negative-integer, Byte-string, Text-string, Array, Map, Tag, and Simple").
`Unsigned` carries a `u64` magnitude, `Negative` the semantic (negative)
`i64`, strings carry their (UTF-8) bytes, `Tag` a `u64` tag number and
`Simple` the enumerated code. -/
inductive Value where
  | Unsigned : Nat → Value
  | Negative : Int → Value
  | ByteString : List Nat → Value
  | TextString : List Nat → Value
  | Array : List Value → Value
  | Map : List (Value × Value) → Value
  | Tag : Nat → Value → Value
  | Simple : Nat → Value

/-- Modelled from the spec: `Value::type_label` ("Each variant reports a
one-byte major type discriminant", values per the wire-format table:
0 unsigned, 1 negative, 2 byte string, 3 text string, 4 array, 5 map,
6 tag, 7 simple). -/
def Value.type_label : Value → Nat
  | .Unsigned _ => 0
  | .Negative _ => 1
  | .ByteString _ => 2
  | .TextString _ => 3
  | .Array _ => 4
  | .Map _ => 5
  | .Tag _ _ => 6
  | .Simple _ => 7

/-- `Writer::start_item`: append the CBOR item header for major type
`type_label` and magnitude `size` to the buffer.  The additional-information
codes 24/25/26/27 and the shift 5 are the `Constants` of the out-of-scope
`values.rs`, modelled from the spec's threshold table.  `(size >> (i*8)) as
u8` becomes `(size >>> (i*8)) % 256`, and the `u8` shift of the label
becomes `(type_label <<< 5) % 256`. -/
def start_item (buf : List Nat) (type_label : Nat) (size : Nat) : List Nat :=
  let fs : Nat × Nat :=
    if size ≤ 23 then (size, 0)
    else if size ≤ 0xFF then (24, 1)
    else if size ≤ 0xFFFF then (25, 2)
    else if size ≤ 0xFFFFFFFF then (26, 4)
    else (27, 8)
  let first_byte := fs.1 ||| ((type_label <<< 5) % 256)
  (buf ++ [first_byte]) ++ ((List.range fs.2).reverse.map fun i => (size >>> (i * 8)) % 256)

/-- The entry depth check `remaining_depth.map_or(false, |d| d < 0)`. -/
def depthExceeded : Option Int → Bool
  | some d => decide (d < 0)
  | none => false

/-- `remaining_depth.map(|d| d - 1)`. -/
def decDepth (d : Option Int) : Option Int := d.map fun x => x - 1

/-- Lexicographic (unsigned byte-wise) comparison of byte sequences:
the `Ord` instance of `Vec<u8>` used by `map.sort_by(|a, b| a.0.cmp(&b.0))`. -/
def lexLe : List Nat → List Nat → Bool
  | [], _ => true
  | _ :: _, [] => false
  | x :: xs, y :: ys => if x < y then true else if y < x then false else lexLe xs ys

/-- `lexLe` as a (decidable) relation on encoded-key/value pairs:
`map.sort_by(|a, b| a.0.cmp(&b.0))` compares only the encoded key bytes. -/
def lexLeP (a b : List Nat × Value) : Prop := lexLe a.1 b.1 = true

instance : DecidableRel lexLeP := fun a b => instDecidableEqBool (lexLe a.1 b.1) true

/-- Tail of `map.dedup_by(|a, b| a.0.eq(&b.0))`: `a` is the last retained
entry; drop the following entries whose key bytes equal its own. -/
def dedupRun (a : List Nat × Value) : List (List Nat × Value) → List (List Nat × Value)
  | [] => []
  | b :: rest => if a.1 = b.1 then dedupRun a rest else b :: dedupRun b rest

/-- `map.dedup_by(|a, b| a.0.eq(&b.0))`: remove consecutive pairs with equal
encoded-key bytes, keeping the first of each run. -/
def dedupAdj : List (List Nat × Value) → List (List Nat × Value)
  | [] => []
  | a :: rest => a :: dedupRun a rest

/-- The wire magnitude of a `Negative` value: `-(negative + 1) as u64`
(two's-complement cast of the `i64` result to `u64`). -/
def negMagnitude (negative : Int) : Nat := ((-(negative + 1)) % (2 ^ 64 : Int)).toNat

/-- The `for el in array` loop of the `Array` arm, parameterized by the
recursive encode call. -/
def encodeArrGo (enc : Value → Option Int → List Nat → List Nat × Option EncoderError) :
    List Value → Option Int → List Nat → List Nat × Option EncoderError
  | [], _, buf => (buf, none)
  | el :: rest, d, buf =>
    match enc el d buf with
    | (buf', none) => encodeArrGo enc rest d buf'
    | (buf', some e) => (buf', some e)

/-- The key pre-encoding pass of the `Map` arm, parameterized by the
recursive encode call: each key is encoded into a fresh temporary buffer;
the first failure short-circuits (`collect::<Result<_, _>>()`). -/
def encodeKeysGo (enc : Value → Option Int → List Nat → List Nat × Option EncoderError) :
    List (Value × Value) → Option Int → Except EncoderError (List (List Nat × Value))
  | [], _ => .ok []
  | (k, v) :: rest, d =>
    match enc k d [] with
    | (encoded_key, none) =>
      match encodeKeysGo enc rest d with
      | .ok l => .ok ((encoded_key, v) :: l)
      | .error e => .error e
    | (_, some e) => .error e

/-- The emission loop of the `Map` arm, parameterized by the recursive encode
call: append the pre-encoded key bytes, then encode the value in place. -/
def emitPairsGo (enc : Value → Option Int → List Nat → List Nat × Option EncoderError) :
    List (List Nat × Value) → Option Int → List Nat → List Nat × Option EncoderError
  | [], _, buf => (buf, none)
  | (encoded_key, v) :: rest, d, buf =>
    match enc v d (buf ++ encoded_key) with
    | (buf', none) => emitPairsGo enc rest d buf'
    | (buf', some e) => (buf', some e)

/-- `Writer::encode_cbor`, with fuel.  Returns the final buffer contents and
`none` on success / `some e` for `Err(e)`.  The fuel-exhaustion case is
unreachable once `fuel > height v` (see `encodeC_fuel_eq`).  Rust's stable
`sort_by` on the encoded keys is modelled by the stable `insertionSort`
under the same comparison. -/
def encodeC : Nat → Value → Option Int → List Nat → List Nat × Option EncoderError
  | 0, _, _, buf => (buf, some .TooMuchNesting)
  | fuel + 1, value, remaining_depth, buf =>
    if depthExceeded remaining_depth then (buf, some .TooMuchNesting)
    else
      let type_label := value.type_label
      match value with
      | .Unsigned unsigned => (start_item buf type_label unsigned, none)
      | .Negative negative => (start_item buf type_label (negMagnitude negative), none)
      | .ByteString byte_string =>
        (start_item buf type_label byte_string.length ++ byte_string, none)
      | .TextString text_string =>
        (start_item buf type_label text_string.length ++ text_string, none)
      | .Array array =>
        encodeArrGo (fun v d b => encodeC fuel v d b) array (decDepth remaining_depth)
          (start_item buf type_label array.length)
      | .Map pairs =>
        match encodeKeysGo (fun v d b => encodeC fuel v d b) pairs
            (decDepth remaining_depth) with
        | .error e => (buf, some e)
        | .ok encPairs =>
          let sorted := encPairs.insertionSort lexLeP
          let map_len := sorted.length
          let deduped := dedupAdj sorted
          if map_len ≠ deduped.length then (buf, some .DuplicateMapKey)
          else
            emitPairsGo (fun v d b => encodeC fuel v d b) deduped
              (decDepth remaining_depth) (start_item buf type_label map_len)
      | .Tag tag inner_value =>
        encodeC fuel inner_value (decDepth remaining_depth)
          (start_item buf type_label tag)
      | .Simple simple_value => (start_item buf type_label simple_value, none)

/-- The `Array` loop with the recursive call at the given fuel. -/
def encodeArr (fuel : Nat) : List Value → Option Int → List Nat →
    List Nat × Option EncoderError
  | [], _, buf => (buf, none)
  | el :: rest, d, buf =>
    match encodeC fuel el d buf with
    | (buf', none) => encodeArr fuel rest d buf'
    | (buf', some e) => (buf', some e)

/-- The key pre-encoding pass with the recursive call at the given fuel. -/
def encodeKeys (fuel : Nat) : List (Value × Value) → Option Int →
    Except EncoderError (List (List Nat × Value))
  | [], _ => .ok []
  | (k, v) :: rest, d =>
    match encodeC fuel k d [] with
    | (encoded_key, none) =>
      match encodeKeys fuel rest d with
      | .ok l => .ok ((encoded_key, v) :: l)
      | .error e => .error e
    | (_, some e) => .error e

/-- The emission loop with the recursive call at the given fuel. -/
def emitPairs (fuel : Nat) : List (List Nat × Value) → Option Int → List Nat →
    List Nat × Option EncoderError
  | [], _, buf => (buf, none)
  | (encoded_key, v) :: rest, d, buf =>
    match encodeC fuel v d (buf ++ encoded_key) with
    | (buf', none) => emitPairs fuel rest d buf'
    | (buf', some e) => (buf', some e)

theorem encodeArrGo_eq (fuel : Nat) : ∀ (l : List Value) (d : Option Int) (buf : List Nat),
    encodeArrGo (fun v d b => encodeC fuel v d b) l d buf = encodeArr fuel l d buf := by
  intro l
  induction l with
  | nil => intro d buf; rfl
  | cons el rest ih =>
    intro d buf
    rw [encodeArrGo, encodeArr]
    rcases encodeC fuel el d buf with ⟨o, e⟩
    cases e with
    | none => exact ih d o
    | some err => rfl

theorem encodeKeysGo_eq (fuel : Nat) : ∀ (l : List (Value × Value)) (d : Option Int),
    encodeKeysGo (fun v d b => encodeC fuel v d b) l d = encodeKeys fuel l d := by
  intro l
  induction l with
  | nil => intro d; rfl
  | cons p rest ih =>
    rcases p with ⟨k, v⟩
    intro d
    rw [encodeKeysGo, encodeKeys]
    rcases encodeC fuel k d [] with ⟨o, e⟩
    cases e with
    | none => rw [ih d]
    | some err => rfl

theorem emitPairsGo_eq (fuel : Nat) : ∀ (l : List (List Nat × Value)) (d : Option Int)
    (buf : List Nat),
    emitPairsGo (fun v d b => encodeC fuel v d b) l d buf = emitPairs fuel l d buf := by
  intro l
  induction l with
  | nil => intro d buf; rfl
  | cons p rest ih =>
    rcases p with ⟨ek, v⟩
    intro d buf
    rw [emitPairsGo, emitPairs]
    rcases encodeC fuel v d (buf ++ ek) with ⟨o, e⟩
    cases e with
    | none => exact ih d _
    | some err => rfl

mutual

/-- Structural nesting depth of a value: leaves are 0; each `Array` element,
each `Map` key, each `Map` value, and each `Tag` inner value adds one. -/
def height : Value → Nat
  | .Unsigned _ => 0
  | .Negative _ => 0
  | .ByteString _ => 0
  | .TextString _ => 0
  | .Array l => heightL l
  | .Map pairs => heightP pairs
  | .Tag _ v => 1 + height v
  | .Simple _ => 0

/-- Depth contributed by a list of array elements. -/
def heightL : List Value → Nat
  | [] => 0
  | v :: rest => max (1 + height v) (heightL rest)

/-- Depth contributed by a list of map pairs (keys and values both count). -/
def heightP : List (Value × Value) → Nat
  | [] => 0
  | (k, v) :: rest => max (max (1 + height k) (1 + height v)) (heightP rest)

end

/-- `write_nested`: encode with an optional explicit nesting limit
(fuel instantiated at the provably sufficient `height value + 1`). -/
def write_nested (value : Value) (encoded_cbor : List Nat) (max_nest : Option Int) :
    List Nat × Option EncoderError :=
  encodeC (height value + 1) value max_nest encoded_cbor

/-- `i8::MAX`. -/
def i8MAX : Int := 127

/-- `write`: encode with the default nesting limit `Some(i8::MAX)`. -/
def write (value : Value) (encoded_cbor : List Nat) : List Nat × Option EncoderError :=
  write_nested value encoded_cbor (some i8MAX)

/-! ## Basic lemmas about the building blocks -/

theorem start_item_append (buf : List Nat) (t s : Nat) :
    start_item buf t s = buf ++ start_item [] t s := by
  simp [start_item, List.append_assoc]

theorem lexLe_total (a b : List Nat) : lexLe a b = true ∨ lexLe b a = true := by
  induction a generalizing b with
  | nil => left; rfl
  | cons x xs ih =>
    cases b with
    | nil => right; rfl
    | cons y ys =>
      rcases Nat.lt_trichotomy x y with h | h | h
      · left; simp [lexLe, h]
      · subst h
        rcases ih ys with h' | h'
        · left; simp [lexLe, h']
        · right; simp [lexLe, h']
      · right; simp [lexLe, h]

theorem lexLe_trans {a b c : List Nat} (hab : lexLe a b = true) (hbc : lexLe b c = true) :
    lexLe a c = true := by
  induction a generalizing b c with
  | nil => rfl
  | cons x xs ih =>
    cases b with
    | nil => simp [lexLe] at hab
    | cons y ys =>
      cases c with
      | nil => simp [lexLe] at hbc
      | cons z zs =>
        simp only [lexLe] at hab hbc ⊢
        split at hab
        · rename_i hxy
          split at hbc
          · rename_i hyz; simp [Nat.lt_trans hxy hyz]
          · split at hbc
            · exact absurd hbc (by simp)
            · rename_i h1 h2
              have : y = z := by omega
              subst this; simp [hxy]
        · split at hab
          · exact absurd hab (by simp)
          · rename_i h1 h2
            have hxy : x = y := by omega
            subst hxy
            split at hbc
            · rename_i hyz; simp [hyz]
            · split at hbc
              · exact absurd hbc (by simp)
              · rename_i h3 h4
                have : x = z := by omega
                subst this
                simp [ih hab hbc]

theorem lexLe_antisymm {a b : List Nat} (hab : lexLe a b = true) (hba : lexLe b a = true) :
    a = b := by
  induction a generalizing b with
  | nil =>
    cases b with
    | nil => rfl
    | cons y ys => simp [lexLe] at hba
  | cons x xs ih =>
    cases b with
    | nil => simp [lexLe] at hab
    | cons y ys =>
      simp only [lexLe] at hab hba
      split at hab
      · rename_i hxy
        rw [if_neg (by omega), if_pos hxy] at hba
        exact absurd hba (by simp)
      · split at hab
        · exact absurd hab (by simp)
        · rename_i h1 h2
          have hxy : x = y := by omega
          subst hxy
          rw [if_neg h1, if_neg h2] at hba
          rw [ih hab hba]

instance : IsTotal (List Nat × Value) lexLeP :=
  ⟨fun a b => lexLe_total a.1 b.1⟩

instance : IsTrans (List Nat × Value) lexLeP :=
  ⟨fun _ _ _ hab hbc => lexLe_trans hab hbc⟩

theorem dedupRun_length_le (a : List Nat × Value) :
    ∀ l : List (List Nat × Value), (dedupRun a l).length ≤ l.length := by
  intro l
  induction l generalizing a with
  | nil => rw [dedupRun]
  | cons b rest ih =>
    rw [dedupRun]
    split
    · exact le_trans (ih a) (by simp)
    · simpa using ih b

theorem dedupAdj_length_le : ∀ l : List (List Nat × Value), (dedupAdj l).length ≤ l.length
  | [] => by rw [dedupAdj]
  | a :: rest => by
    rw [dedupAdj]
    simpa using dedupRun_length_le a rest

theorem dedupRun_eq_self (a : List Nat × Value) :
    ∀ l : List (List Nat × Value), (a :: l).Chain' (fun a b => a.1 ≠ b.1) →
      dedupRun a l = l := by
  intro l
  induction l generalizing a with
  | nil => intro _; rw [dedupRun]
  | cons b rest ih =>
    intro h
    rw [List.chain'_cons] at h
    rw [dedupRun, if_neg h.1, ih b h.2]

/-- When no two adjacent entries have equal key bytes, `dedup_by` removes
nothing. -/
theorem dedupAdj_eq_self : ∀ l : List (List Nat × Value),
    l.Chain' (fun a b => a.1 ≠ b.1) → dedupAdj l = l
  | [], _ => by rw [dedupAdj]
  | a :: rest, h => by
    rw [dedupAdj, dedupRun_eq_self a rest h]

theorem dedupRun_length_lt (a : List Nat × Value) :
    ∀ l : List (List Nat × Value), ¬ (a :: l).Chain' (fun a b => a.1 ≠ b.1) →
      (dedupRun a l).length < l.length := by
  intro l
  induction l generalizing a with
  | nil => intro h; exact absurd (List.chain'_singleton a) h
  | cons b rest ih =>
    intro h
    rw [dedupRun]
    by_cases hab : a.1 = b.1
    · rw [if_pos hab]
      have := dedupRun_length_le a rest
      simp only [List.length_cons]
      omega
    · rw [if_neg hab]
      rw [List.chain'_cons] at h
      have := ih b fun hc => h ⟨hab, hc⟩
      simp only [List.length_cons]
      omega

/-- An adjacent equal-key pair makes `dedup_by` strictly shorten the list. -/
theorem dedupAdj_length_lt : ∀ l : List (List Nat × Value),
    ¬ l.Chain' (fun a b => a.1 ≠ b.1) → (dedupAdj l).length < l.length
  | [], h => absurd List.chain'_nil h
  | a :: rest, h => by
    rw [dedupAdj]
    have := dedupRun_length_lt a rest h
    simp only [List.length_cons]
    omega

/-! ## Height bounds for members -/

theorem heightL_mem {v : Value} : ∀ {l : List Value}, v ∈ l → 1 + height v ≤ heightL l
  | [], h => absurd h (List.not_mem_nil v)
  | u :: rest, h => by
    rw [heightL]
    rcases List.mem_cons.mp h with h | h
    · subst h; exact le_max_left _ _
    · exact le_trans (heightL_mem h) (le_max_right _ _)

theorem heightP_mem_key {k v : Value} : ∀ {l : List (Value × Value)},
    (k, v) ∈ l → 1 + height k ≤ heightP l
  | [], h => absurd h (List.not_mem_nil _)
  | (k', v') :: rest, h => by
    rw [heightP]
    rcases List.mem_cons.mp h with h | h
    · rw [Prod.mk.injEq] at h
      rw [h.1]
      exact le_trans (le_max_left _ _) (le_max_left _ _)
    · exact le_trans (heightP_mem_key h) (le_max_right _ _)

theorem heightP_mem_val {k v : Value} : ∀ {l : List (Value × Value)},
    (k, v) ∈ l → 1 + height v ≤ heightP l
  | [], h => absurd h (List.not_mem_nil _)
  | (k', v') :: rest, h => by
    rw [heightP]
    rcases List.mem_cons.mp h with h | h
    · rw [Prod.mk.injEq] at h
      rw [h.2]
      exact le_trans (le_max_right _ _) (le_max_left _ _)
    · exact le_trans (heightP_mem_val h) (le_max_right _ _)

/-! ## The item header, described by explicit big-endian arithmetic -/

/-- The CBOR item header for major type `t` and magnitude `m`, written out as
the spec describes it: additional information 0–23 inline in the single
header byte `(t << 5) | m`, otherwise code 24/25/26/27 followed by
1/2/4/8 big-endian bytes of `m`. -/
def headerBytes (t m : Nat) : List Nat :=
  if m ≤ 23 then [32 * t + m]
  else if m ≤ 255 then [32 * t + 24, m]
  else if m ≤ 65535 then [32 * t + 25, m / 2 ^ 8 % 256, m % 256]
  else if m ≤ 4294967295 then
    [32 * t + 26, m / 2 ^ 24 % 256, m / 2 ^ 16 % 256, m / 2 ^ 8 % 256, m % 256]
  else
    [32 * t + 27, m / 2 ^ 56 % 256, m / 2 ^ 48 % 256, m / 2 ^ 40 % 256,
      m / 2 ^ 32 % 256, m / 2 ^ 24 % 256, m / 2 ^ 16 % 256, m / 2 ^ 8 % 256, m % 256]

theorem lor_shift_small {t c : Nat} (ht : t ≤ 7) (hc : c < 32) :
    c ||| ((t <<< 5) % 256) = 32 * t + c := by
  interval_cases t <;> interval_cases c <;> rfl

theorem start_item_eq (buf : List Nat) (t m : Nat) (ht : t ≤ 7) :
    start_item buf t m = buf ++ headerBytes t m := by
  unfold start_item headerBytes
  by_cases h1 : m ≤ 23
  · simp [h1, lor_shift_small ht (by omega : m < 32)]
  · by_cases h2 : m ≤ 255
    · simp [h1, h2, lor_shift_small ht (by omega : (24 : Nat) < 32), List.range_succ,
        Nat.shiftRight_eq_div_pow, Nat.mod_eq_of_lt (by omega : m < 256)]
    · by_cases h3 : m ≤ 65535
      · simp [h1, h2, h3, lor_shift_small ht (by omega : (25 : Nat) < 32), List.range_succ,
          Nat.shiftRight_eq_div_pow]
      · by_cases h4 : m ≤ 4294967295
        · simp [h1, h2, h3, h4, lor_shift_small ht (by omega : (26 : Nat) < 32),
            List.range_succ, Nat.shiftRight_eq_div_pow]
        · simp [h1, h2, h3, h4, lor_shift_small ht (by omega : (27 : Nat) < 32),
            List.range_succ, Nat.shiftRight_eq_div_pow]

/-! ## Unfolding lemmas for `encodeC` -/

theorem encodeC_zero (v : Value) (d : Option Int) (buf : List Nat) :
    encodeC 0 v d buf = (buf, some .TooMuchNesting) := by rw [encodeC]

theorem encodeC_depth {d : Option Int} (h : depthExceeded d = true) (fuel : Nat) (v : Value)
    (buf : List Nat) : encodeC (fuel + 1) v d buf = (buf, some .TooMuchNesting) := by
  rw [encodeC]; simp [h]

theorem encodeC_unsigned {d : Option Int} (h : depthExceeded d = false) (fuel u : Nat)
    (buf : List Nat) : encodeC (fuel + 1) (.Unsigned u) d buf = (start_item buf 0 u, none) := by
  rw [encodeC]; simp [h, Value.type_label]

theorem encodeC_negative {d : Option Int} (h : depthExceeded d = false) (fuel : Nat) (n : Int)
    (buf : List Nat) :
    encodeC (fuel + 1) (.Negative n) d buf = (start_item buf 1 (negMagnitude n), none) := by
  rw [encodeC]; simp [h, Value.type_label]

theorem encodeC_bytes {d : Option Int} (h : depthExceeded d = false) (fuel : Nat) (b : List Nat)
    (buf : List Nat) :
    encodeC (fuel + 1) (.ByteString b) d buf = (start_item buf 2 b.length ++ b, none) := by
  rw [encodeC]; simp [h, Value.type_label]

theorem encodeC_text {d : Option Int} (h : depthExceeded d = false) (fuel : Nat) (s : List Nat)
    (buf : List Nat) :
    encodeC (fuel + 1) (.TextString s) d buf = (start_item buf 3 s.length ++ s, none) := by
  rw [encodeC]; simp [h, Value.type_label]

theorem encodeC_array {d : Option Int} (h : depthExceeded d = false) (fuel : Nat)
    (l : List Value) (buf : List Nat) :
    encodeC (fuel + 1) (.Array l) d buf
      = encodeArr fuel l (decDepth d) (start_item buf 4 l.length) := by
  rw [encodeC]; simp only [h, Bool.false_eq_true, if_false, Value.type_label]
  exact encodeArrGo_eq fuel l _ _

theorem encodeC_tag {d : Option Int} (h : depthExceeded d = false) (fuel t : Nat)
    (inner : Value) (buf : List Nat) :
    encodeC (fuel + 1) (.Tag t inner) d buf
      = encodeC fuel inner (decDepth d) (start_item buf 6 t) := by
  rw [encodeC]; simp [h, Value.type_label]

theorem encodeC_simple {d : Option Int} (h : depthExceeded d = false) (fuel s : Nat)
    (buf : List Nat) :
    encodeC (fuel + 1) (.Simple s) d buf = (start_item buf 7 s, none) := by
  rw [encodeC]; simp [h, Value.type_label]

theorem encodeC_map_err {d : Option Int} (h : depthExceeded d = false) {fuel : Nat}
    {pairs : List (Value × Value)} {e : EncoderError}
    (hk : encodeKeys fuel pairs (decDepth d) = .error e) (buf : List Nat) :
    encodeC (fuel + 1) (.Map pairs) d buf = (buf, some e) := by
  rw [encodeC]; simp only [h, Bool.false_eq_true, if_false, Value.type_label]
  rw [encodeKeysGo_eq, hk]

theorem encodeC_map_dup {d : Option Int} (h : depthExceeded d = false) {fuel : Nat}
    {pairs : List (Value × Value)} {encPairs : List (List Nat × Value)}
    (hk : encodeKeys fuel pairs (decDepth d) = .ok encPairs)
    (hdup : (encPairs.insertionSort lexLeP).length
      ≠ (dedupAdj (encPairs.insertionSort lexLeP)).length) (buf : List Nat) :
    encodeC (fuel + 1) (.Map pairs) d buf = (buf, some .DuplicateMapKey) := by
  rw [encodeC]; simp only [h, Bool.false_eq_true, if_false, Value.type_label]
  rw [encodeKeysGo_eq, hk]
  simp only []
  rw [if_pos hdup]

theorem encodeC_map_ok {d : Option Int} (h : depthExceeded d = false) {fuel : Nat}
    {pairs : List (Value × Value)} {encPairs : List (List Nat × Value)}
    (hk : encodeKeys fuel pairs (decDepth d) = .ok encPairs)
    (hdup : (encPairs.insertionSort lexLeP).length
      = (dedupAdj (encPairs.insertionSort lexLeP)).length) (buf : List Nat) :
    encodeC (fuel + 1) (.Map pairs) d buf
      = emitPairs fuel (dedupAdj (encPairs.insertionSort lexLeP)) (decDepth d)
          (start_item buf 5 (encPairs.insertionSort lexLeP).length) := by
  rw [encodeC]; simp only [h, Bool.false_eq_true, if_false, Value.type_label]
  rw [encodeKeysGo_eq, hk]
  simp only []
  rw [if_neg (by omega)]
  rw [emitPairsGo_eq]

/-! ## Frame lemmas: the encoder only appends to the output buffer -/

theorem encodeArr_frame {fuel : Nat}
    (hC : ∀ v d buf, encodeC fuel v d buf
      = (buf ++ (encodeC fuel v d []).1, (encodeC fuel v d []).2)) :
    ∀ (l : List Value) (d : Option Int) (buf : List Nat),
      encodeArr fuel l d buf = (buf ++ (encodeArr fuel l d []).1, (encodeArr fuel l d []).2) := by
  intro l
  induction l with
  | nil => intro d buf; rw [encodeArr, encodeArr]; simp
  | cons el rest ih =>
    intro d buf
    rcases he : encodeC fuel el d [] with ⟨o, e⟩
    have h1 : encodeC fuel el d buf = (buf ++ o, e) := by rw [hC el d buf, he]
    cases e with
    | none =>
      have hL : encodeArr fuel (el :: rest) d buf = encodeArr fuel rest d (buf ++ o) := by
        rw [encodeArr, h1]
      have hR : encodeArr fuel (el :: rest) d [] = encodeArr fuel rest d o := by
        rw [encodeArr, he]
      rw [hL, hR, ih d (buf ++ o), ih d o]
      simp [List.append_assoc]
    | some err =>
      have hL : encodeArr fuel (el :: rest) d buf = (buf ++ o, some err) := by
        rw [encodeArr, h1]
      have hR : encodeArr fuel (el :: rest) d [] = (o, some err) := by
        rw [encodeArr, he]
      rw [hL, hR]

theorem emitPairs_frame {fuel : Nat}
    (hC : ∀ v d buf, encodeC fuel v d buf
      = (buf ++ (encodeC fuel v d []).1, (encodeC fuel v d []).2)) :
    ∀ (l : List (List Nat × Value)) (d : Option Int) (buf : List Nat),
      emitPairs fuel l d buf = (buf ++ (emitPairs fuel l d []).1, (emitPairs fuel l d []).2) := by
  intro l
  induction l with
  | nil => intro d buf; rw [emitPairs, emitPairs]; simp
  | cons p rest ih =>
    rcases p with ⟨ek, v⟩
    intro d buf
    rcases he : encodeC fuel v d [] with ⟨o, e⟩
    have h1 : encodeC fuel v d (buf ++ ek) = ((buf ++ ek) ++ o, e) := by
      rw [hC v d (buf ++ ek), he]
    have h2 : encodeC fuel v d ([] ++ ek) = (([] ++ ek) ++ o, e) := by
      rw [hC v d ([] ++ ek), he]
    cases e with
    | none =>
      have hL : emitPairs fuel ((ek, v) :: rest) d buf = emitPairs fuel rest d ((buf ++ ek) ++ o) := by
        rw [emitPairs, h1]
      have hR : emitPairs fuel ((ek, v) :: rest) d [] = emitPairs fuel rest d (([] ++ ek) ++ o) := by
        rw [emitPairs, h2]
      rw [hL, hR, ih d ((buf ++ ek) ++ o), ih d (([] ++ ek) ++ o)]
      simp [List.append_assoc]
    | some err =>
      have hL : emitPairs fuel ((ek, v) :: rest) d buf = ((buf ++ ek) ++ o, some err) := by
        rw [emitPairs, h1]
      have hR : emitPairs fuel ((ek, v) :: rest) d [] = (([] ++ ek) ++ o, some err) := by
        rw [emitPairs, h2]
      rw [hL, hR]
      simp [List.append_assoc]

theorem encodeC_frame : ∀ (fuel : Nat) (v : Value) (d : Option Int) (buf : List Nat),
    encodeC fuel v d buf = (buf ++ (encodeC fuel v d []).1, (encodeC fuel v d []).2) := by
  intro fuel
  induction fuel with
  | zero => intro v d buf; rw [encodeC_zero, encodeC_zero]; simp
  | succ fuel ih =>
    intro v d buf
    by_cases hd : depthExceeded d
    · rw [encodeC_depth hd, encodeC_depth hd]; simp
    · simp only [Bool.not_eq_true] at hd
      cases v with
      | Unsigned u =>
        rw [encodeC_unsigned hd, encodeC_unsigned hd, start_item_append]
      | Negative n =>
        rw [encodeC_negative hd, encodeC_negative hd, start_item_append]
      | ByteString b =>
        rw [encodeC_bytes hd, encodeC_bytes hd, start_item_append]
        simp [List.append_assoc]
      | TextString s =>
        rw [encodeC_text hd, encodeC_text hd, start_item_append]
        simp [List.append_assoc]
      | Array l =>
        rw [encodeC_array hd, encodeC_array hd]
        rw [encodeArr_frame ih l (decDepth d) (start_item buf 4 l.length),
          encodeArr_frame ih l (decDepth d) (start_item [] 4 l.length), start_item_append]
        simp [List.append_assoc]
      | Map pairs =>
        rcases hk : encodeKeys fuel pairs (decDepth d) with e | encPairs
        · rw [encodeC_map_err hd hk, encodeC_map_err hd hk]; simp
        · by_cases hdup : (encPairs.insertionSort lexLeP).length
            = (dedupAdj (encPairs.insertionSort lexLeP)).length
          · rw [encodeC_map_ok hd hk hdup, encodeC_map_ok hd hk hdup]
            rw [emitPairs_frame ih _ (decDepth d) (start_item buf 5 _),
              emitPairs_frame ih _ (decDepth d) (start_item [] 5 _), start_item_append]
            simp [List.append_assoc]
          · rw [encodeC_map_dup hd hk hdup, encodeC_map_dup hd hk hdup]; simp
      | Tag t inner =>
        rw [encodeC_tag hd, encodeC_tag hd]
        rw [ih inner (decDepth d) (start_item buf 6 t),
          ih inner (decDepth d) (start_item [] 6 t), start_item_append]
        simp [List.append_assoc]
      | Simple s =>
        rw [encodeC_simple hd, encodeC_simple hd, start_item_append]

/-! ## Fuel irrelevance: any fuel above the value's height gives the same result -/

theorem dedupRun_subset (a : List Nat × Value) :
    ∀ {l : List (List Nat × Value)} {p}, p ∈ dedupRun a l → p ∈ l := by
  intro l
  induction l generalizing a with
  | nil => intro p h; rw [dedupRun] at h; exact absurd h (List.not_mem_nil p)
  | cons b rest ih =>
    intro p h
    rw [dedupRun] at h
    split at h
    · exact List.mem_cons_of_mem b (ih a h)
    · rcases List.mem_cons.mp h with h' | h'
      · exact h' ▸ List.mem_cons_self b rest
      · exact List.mem_cons_of_mem b (ih b h')

theorem dedupAdj_subset : ∀ {l : List (List Nat × Value)} {p}, p ∈ dedupAdj l → p ∈ l
  | [], p, h => by rw [dedupAdj] at h; exact absurd h (List.not_mem_nil p)
  | a :: rest, p, h => by
    rw [dedupAdj] at h
    rcases List.mem_cons.mp h with h' | h'
    · exact h' ▸ List.mem_cons_self a rest
    · exact List.mem_cons_of_mem a (dedupRun_subset a h')

theorem encodeKeys_ok_elim {fuel : Nat} : ∀ {pairs : List (Value × Value)} {d : Option Int}
    {l : List (List Nat × Value)}, encodeKeys fuel pairs d = .ok l →
    (∀ p ∈ pairs, (encodeC fuel p.1 d []).2 = none)
    ∧ l = pairs.map fun p => ((encodeC fuel p.1 d []).1, p.2) := by
  intro pairs
  induction pairs with
  | nil =>
    intro d l h
    rw [encodeKeys] at h
    cases h
    exact ⟨fun p hp => absurd hp (List.not_mem_nil p), rfl⟩
  | cons p rest ih =>
    rcases p with ⟨k, v⟩
    intro d l h
    rw [encodeKeys] at h
    rcases he : encodeC fuel k d [] with ⟨o, e⟩
    rw [he] at h
    cases e with
    | none =>
      rcases hr : encodeKeys fuel rest d with e' | l'
      · rw [hr] at h; cases h
      · rw [hr] at h
        cases h
        rcases ih hr with ⟨hall, hl⟩
        refine ⟨?_, ?_⟩
        · intro q hq
          rcases List.mem_cons.mp hq with h' | h'
          · subst h'; rw [he]
          · exact hall q h'
        · simp only [List.map_cons, he, ← hl]
    | some err => cases h

theorem encodeKeys_fuel_eq {f1 f2 : Nat}
    (hC : ∀ v d buf, height v < f1 → height v < f2 → encodeC f1 v d buf = encodeC f2 v d buf) :
    ∀ (pairs : List (Value × Value)) (d : Option Int),
      (∀ p ∈ pairs, height p.1 < f1) → (∀ p ∈ pairs, height p.1 < f2) →
      encodeKeys f1 pairs d = encodeKeys f2 pairs d := by
  intro pairs
  induction pairs with
  | nil => intro d _ _; rw [encodeKeys, encodeKeys]
  | cons p rest ih =>
    rcases p with ⟨k, v⟩
    intro d h1 h2
    rw [encodeKeys, encodeKeys]
    rw [← hC k d [] (h1 _ (List.mem_cons_self _ _)) (h2 _ (List.mem_cons_self _ _))]
    rw [← ih d (fun q hq => h1 q (List.mem_cons_of_mem _ hq))
      (fun q hq => h2 q (List.mem_cons_of_mem _ hq))]

theorem encodeArr_fuel_eq {f1 f2 : Nat}
    (hC : ∀ v d buf, height v < f1 → height v < f2 → encodeC f1 v d buf = encodeC f2 v d buf) :
    ∀ (l : List Value) (d : Option Int) (buf : List Nat),
      (∀ v ∈ l, height v < f1) → (∀ v ∈ l, height v < f2) →
      encodeArr f1 l d buf = encodeArr f2 l d buf := by
  intro l
  induction l with
  | nil => intro d buf _ _; rw [encodeArr, encodeArr]
  | cons el rest ih =>
    intro d buf h1 h2
    rw [encodeArr, encodeArr]
    rw [← hC el d buf (h1 _ (List.mem_cons_self _ _)) (h2 _ (List.mem_cons_self _ _))]
    rcases encodeC f1 el d buf with ⟨o, e⟩
    cases e with
    | none =>
      simp only []
      exact ih d o (fun q hq => h1 q (List.mem_cons_of_mem _ hq))
        (fun q hq => h2 q (List.mem_cons_of_mem _ hq))
    | some err => rfl

theorem emitPairs_fuel_eq {f1 f2 : Nat}
    (hC : ∀ v d buf, height v < f1 → height v < f2 → encodeC f1 v d buf = encodeC f2 v d buf) :
    ∀ (l : List (List Nat × Value)) (d : Option Int) (buf : List Nat),
      (∀ p ∈ l, height p.2 < f1) → (∀ p ∈ l, height p.2 < f2) →
      emitPairs f1 l d buf = emitPairs f2 l d buf := by
  intro l
  induction l with
  | nil => intro d buf _ _; rw [emitPairs, emitPairs]
  | cons p rest ih =>
    rcases p with ⟨ek, v⟩
    intro d buf h1 h2
    rw [emitPairs, emitPairs]
    rw [← hC v d (buf ++ ek) (h1 _ (List.mem_cons_self _ _)) (h2 _ (List.mem_cons_self _ _))]
    rcases encodeC f1 v d (buf ++ ek) with ⟨o, e⟩
    cases e with
    | none =>
      simp only []
      exact ih d o (fun q hq => h1 q (List.mem_cons_of_mem _ hq))
        (fun q hq => h2 q (List.mem_cons_of_mem _ hq))
    | some err => rfl

theorem encodeC_fuel_eq : ∀ (f1 : Nat) {f2 : Nat} (v : Value) (d : Option Int) (buf : List Nat),
    height v < f1 → height v < f2 → encodeC f1 v d buf = encodeC f2 v d buf := by
  intro f1
  induction f1 with
  | zero => intro f2 v d buf h1 _; omega
  | succ f1 ih =>
    intro f2 v d buf h1 h2
    rcases f2 with - | f2
    · omega
    by_cases hd : depthExceeded d
    · rw [encodeC_depth hd, encodeC_depth hd]
    · simp only [Bool.not_eq_true] at hd
      cases v with
      | Unsigned u => rw [encodeC_unsigned hd, encodeC_unsigned hd]
      | Negative n => rw [encodeC_negative hd, encodeC_negative hd]
      | ByteString b => rw [encodeC_bytes hd, encodeC_bytes hd]
      | TextString s => rw [encodeC_text hd, encodeC_text hd]
      | Simple s => rw [encodeC_simple hd, encodeC_simple hd]
      | Tag t inner =>
        rw [encodeC_tag hd, encodeC_tag hd]
        exact ih inner (decDepth d) (start_item buf 6 t)
          (by rw [height] at h1; omega) (by rw [height] at h2; omega)
      | Array l =>
        rw [encodeC_array hd, encodeC_array hd]
        rw [height] at h1 h2
        exact encodeArr_fuel_eq ih l (decDepth d) (start_item buf 4 l.length)
          (fun v hv => by have := heightL_mem hv; omega)
          (fun v hv => by have := heightL_mem hv; omega)
      | Map pairs =>
        rw [height] at h1 h2
        have hkeys1 : ∀ p ∈ pairs, height p.1 < f1 := fun p hp => by
          have := heightP_mem_key (k := p.1) (v := p.2) (by simpa using hp); omega
        have hkeys2 : ∀ p ∈ pairs, height p.1 < f2 := fun p hp => by
          have := heightP_mem_key (k := p.1) (v := p.2) (by simpa using hp); omega
        have hkeq := encodeKeys_fuel_eq ih pairs (decDepth d) hkeys1 hkeys2
        rcases hk : encodeKeys f1 pairs (decDepth d) with e | encPairs
        · rw [encodeC_map_err hd hk, encodeC_map_err hd (hkeq ▸ hk)]
        · have hk2 : encodeKeys f2 pairs (decDepth d) = .ok encPairs := hkeq ▸ hk
          have hvals : ∀ p ∈ dedupAdj (encPairs.insertionSort lexLeP),
              height p.2 < f1 ∧ height p.2 < f2 := by
            intro p hp
            have hmem : p ∈ encPairs :=
              ((List.perm_insertionSort lexLeP encPairs).mem_iff).mp (dedupAdj_subset hp)
            rcases encodeKeys_ok_elim hk with ⟨-, hl⟩
            rw [hl] at hmem
            rcases List.mem_map.mp hmem with ⟨q, hq, hqe⟩
            have := heightP_mem_val (k := q.1) (v := q.2) (by simpa using hq)
            have hsnd : p.2 = q.2 := by rw [← hqe]
            rw [hsnd]; omega
          by_cases hdup : (encPairs.insertionSort lexLeP).length
            = (dedupAdj (encPairs.insertionSort lexLeP)).length
          · rw [encodeC_map_ok hd hk hdup, encodeC_map_ok hd hk2 hdup]
            exact emitPairs_fuel_eq ih _ (decDepth d) _
              (fun p hp => (hvals p hp).1) (fun p hp => (hvals p hp).2)
          · rw [encodeC_map_dup hd hk hdup, encodeC_map_dup hd hk2 hdup]

/-! ## Success and first-error characterizations of the loop helpers -/

theorem encodeArr_ok_of_all {fuel : Nat} : ∀ {l : List Value} {d : Option Int} {buf : List Nat},
    (∀ v ∈ l, (encodeC fuel v d []).2 = none) →
    encodeArr fuel l d buf = (buf ++ (l.map fun v => (encodeC fuel v d []).1).flatten, none) := by
  intro l
  induction l with
  | nil => intro d buf _; rw [encodeArr]; simp
  | cons el rest ih =>
    intro d buf hall
    have he : encodeC fuel el d buf = (buf ++ (encodeC fuel el d []).1, none) := by
      rw [encodeC_frame, hall el (List.mem_cons_self _ _)]
    rw [encodeArr, he]
    simp only []
    rw [ih fun v hv => hall v (List.mem_cons_of_mem _ hv)]
    simp [List.append_assoc]

theorem encodeArr_err_of_first {fuel : Nat} : ∀ {l1 : List Value} {u : Value} {l2 : List Value}
    {d : Option Int} {buf : List Nat} {e : EncoderError},
    (∀ v ∈ l1, (encodeC fuel v d []).2 = none) →
    (encodeC fuel u d []).2 = some e →
    (encodeArr fuel (l1 ++ u :: l2) d buf).2 = some e := by
  intro l1
  induction l1 with
  | nil =>
    intro u l2 d buf e _ hu
    have he : encodeC fuel u d buf = (buf ++ (encodeC fuel u d []).1, some e) := by
      rw [encodeC_frame, hu]
    rw [List.nil_append, encodeArr, he]
  | cons el rest ih =>
    intro u l2 d buf e hall hu
    have he : encodeC fuel el d buf = (buf ++ (encodeC fuel el d []).1, none) := by
      rw [encodeC_frame, hall el (List.mem_cons_self _ _)]
    rw [List.cons_append, encodeArr, he]
    exact ih (fun v hv => hall v (List.mem_cons_of_mem _ hv)) hu

theorem emitPairs_ok_of_all {fuel : Nat} : ∀ {l : List (List Nat × Value)} {d : Option Int}
    {buf : List Nat},
    (∀ p ∈ l, (encodeC fuel p.2 d []).2 = none) →
    emitPairs fuel l d buf
      = (buf ++ (l.map fun p => p.1 ++ (encodeC fuel p.2 d []).1).flatten, none) := by
  intro l
  induction l with
  | nil => intro d buf _; rw [emitPairs]; simp
  | cons p rest ih =>
    rcases p with ⟨ek, v⟩
    intro d buf hall
    have he : encodeC fuel v d (buf ++ ek) = ((buf ++ ek) ++ (encodeC fuel v d []).1, none) := by
      rw [encodeC_frame]
      have := hall (ek, v) (List.mem_cons_self _ _)
      simp only [] at this
      rw [this]
    rw [emitPairs, he]
    simp only []
    rw [ih fun q hq => hall q (List.mem_cons_of_mem _ hq)]
    simp [List.append_assoc]

theorem emitPairs_err_of_first {fuel : Nat} : ∀ {l1 : List (List Nat × Value)}
    {p : List Nat × Value} {l2 : List (List Nat × Value)} {d : Option Int} {buf : List Nat}
    {e : EncoderError},
    (∀ q ∈ l1, (encodeC fuel q.2 d []).2 = none) →
    (encodeC fuel p.2 d []).2 = some e →
    (emitPairs fuel (l1 ++ p :: l2) d buf).2 = some e := by
  intro l1
  induction l1 with
  | nil =>
    intro p l2 d buf e _ hp
    rcases p with ⟨ek, v⟩
    have he : encodeC fuel v d (buf ++ ek) = ((buf ++ ek) ++ (encodeC fuel v d []).1, some e) := by
      rw [encodeC_frame]
      simp only [] at hp
      rw [hp]
    rw [List.nil_append, emitPairs, he]
  | cons q rest ih =>
    rcases q with ⟨ek, v⟩
    intro p l2 d buf e hall hp
    have he : encodeC fuel v d (buf ++ ek) = ((buf ++ ek) ++ (encodeC fuel v d []).1, none) := by
      rw [encodeC_frame]
      have := hall (ek, v) (List.mem_cons_self _ _)
      simp only [] at this
      rw [this]
    rw [List.cons_append, emitPairs, he]
    exact ih (fun q hq => hall q (List.mem_cons_of_mem _ hq)) hp

theorem encodeKeys_ok_of_all {fuel : Nat} : ∀ {pairs : List (Value × Value)} {d : Option Int},
    (∀ p ∈ pairs, (encodeC fuel p.1 d []).2 = none) →
    encodeKeys fuel pairs d = .ok (pairs.map fun p => ((encodeC fuel p.1 d []).1, p.2)) := by
  intro pairs
  induction pairs with
  | nil => intro d _; rw [encodeKeys]; rfl
  | cons p rest ih =>
    rcases p with ⟨k, v⟩
    intro d hall
    rw [encodeKeys]
    rcases he : encodeC fuel k d [] with ⟨o, e⟩
    have := hall (k, v) (List.mem_cons_self _ _)
    simp only [] at this
    rw [he] at this
    subst this
    simp only []
    rw [ih fun q hq => hall q (List.mem_cons_of_mem _ hq)]
    simp [he]

theorem encodeKeys_err_of_first {fuel : Nat} : ∀ {p1 : List (Value × Value)}
    {q : Value × Value} {p2 : List (Value × Value)} {d : Option Int} {e : EncoderError},
    (∀ r ∈ p1, (encodeC fuel r.1 d []).2 = none) →
    (encodeC fuel q.1 d []).2 = some e →
    encodeKeys fuel (p1 ++ q :: p2) d = .error e := by
  intro p1
  induction p1 with
  | nil =>
    intro q p2 d e _ hq
    rcases q with ⟨k, v⟩
    rw [List.nil_append, encodeKeys]
    rcases he : encodeC fuel k d [] with ⟨o, er⟩
    simp only [] at hq
    rw [he] at hq
    subst hq
    rfl
  | cons r rest ih =>
    rcases r with ⟨k, v⟩
    intro q p2 d e hall hq
    rw [List.cons_append, encodeKeys]
    rcases he : encodeC fuel k d [] with ⟨o, er⟩
    have := hall (k, v) (List.mem_cons_self _ _)
    simp only [] at this
    rw [he] at this
    subst this
    simp only []
    rw [ih (fun r hr => hall r (List.mem_cons_of_mem _ hr)) hq]

/-! ## On success, a finite depth budget gives the same output as no budget -/

theorem encodeArr_some_to_none {fuel : Nat}
    (hC : ∀ (v : Value) (L : Int) (buf : List Nat), (encodeC fuel v (some L) buf).2 = none →
      encodeC fuel v (some L) buf = encodeC fuel v none buf) :
    ∀ (l : List Value) (L : Int) (buf : List Nat),
      (encodeArr fuel l (some L) buf).2 = none →
      encodeArr fuel l (some L) buf = encodeArr fuel l none buf := by
  intro l
  induction l with
  | nil => intro L buf _; rw [encodeArr, encodeArr]
  | cons el rest ih =>
    intro L buf hok
    rcases he : encodeC fuel el (some L) buf with ⟨o, e⟩
    cases e with
    | some err =>
      rw [encodeArr, he] at hok
      simp at hok
    | none =>
      have h2 : encodeC fuel el none buf = (o, none) := by
        rw [← hC el L buf (by rw [he]), he]
      rw [encodeArr, he] at hok
      rw [encodeArr, he, encodeArr, h2]
      simp only [] at hok ⊢
      exact ih L o hok

theorem emitPairs_some_to_none {fuel : Nat}
    (hC : ∀ (v : Value) (L : Int) (buf : List Nat), (encodeC fuel v (some L) buf).2 = none →
      encodeC fuel v (some L) buf = encodeC fuel v none buf) :
    ∀ (l : List (List Nat × Value)) (L : Int) (buf : List Nat),
      (emitPairs fuel l (some L) buf).2 = none →
      emitPairs fuel l (some L) buf = emitPairs fuel l none buf := by
  intro l
  induction l with
  | nil => intro L buf _; rw [emitPairs, emitPairs]
  | cons p rest ih =>
    rcases p with ⟨ek, v⟩
    intro L buf hok
    rcases he : encodeC fuel v (some L) (buf ++ ek) with ⟨o, e⟩
    cases e with
    | some err =>
      rw [emitPairs, he] at hok
      simp at hok
    | none =>
      have h2 : encodeC fuel v none (buf ++ ek) = (o, none) := by
        rw [← hC v L (buf ++ ek) (by rw [he]), he]
      rw [emitPairs, he] at hok
      rw [emitPairs, he, emitPairs, h2]
      simp only [] at hok ⊢
      exact ih L o hok

theorem encodeKeys_some_to_none {fuel : Nat}
    (hC : ∀ (v : Value) (L : Int) (buf : List Nat), (encodeC fuel v (some L) buf).2 = none →
      encodeC fuel v (some L) buf = encodeC fuel v none buf) :
    ∀ (pairs : List (Value × Value)) (L : Int) {l : List (List Nat × Value)},
      encodeKeys fuel pairs (some L) = .ok l →
      encodeKeys fuel pairs none = .ok l := by
  intro pairs
  induction pairs with
  | nil => intro L l h; rw [encodeKeys] at h ⊢; exact h
  | cons p rest ih =>
    rcases p with ⟨k, v⟩
    intro L l h
    rw [encodeKeys] at h
    rcases he : encodeC fuel k (some L) [] with ⟨o, e⟩
    rw [he] at h
    cases e with
    | some err => cases h
    | none =>
      have h2 : encodeC fuel k none [] = (o, none) := by
        rw [← hC k L [] (by rw [he]), he]
      rcases hr : encodeKeys fuel rest (some L) with e' | l'
      · rw [hr] at h; cases h
      · rw [hr] at h
        cases h
        rw [encodeKeys, h2]
        simp only []
        rw [ih L hr]

theorem encodeC_some_to_none : ∀ (fuel : Nat) (v : Value) (L : Int) (buf : List Nat),
    (encodeC fuel v (some L) buf).2 = none →
    encodeC fuel v (some L) buf = encodeC fuel v none buf := by
  intro fuel
  induction fuel with
  | zero => intro v L buf h; rw [encodeC_zero] at h; simp at h
  | succ fuel ih =>
    intro v L buf h
    by_cases hd : depthExceeded (some L)
    · rw [encodeC_depth hd] at h; simp at h
    · simp only [Bool.not_eq_true] at hd
      have hn : depthExceeded none = false := rfl
      have hdec : decDepth (some L) = some (L - 1) := rfl
      have hdecn : decDepth none = none := rfl
      cases v with
      | Unsigned u => rw [encodeC_unsigned hd, encodeC_unsigned hn]
      | Negative n => rw [encodeC_negative hd, encodeC_negative hn]
      | ByteString b => rw [encodeC_bytes hd, encodeC_bytes hn]
      | TextString s => rw [encodeC_text hd, encodeC_text hn]
      | Simple s => rw [encodeC_simple hd, encodeC_simple hn]
      | Tag t inner =>
        rw [encodeC_tag hd, hdec] at h ⊢
        rw [encodeC_tag hn, hdecn]
        exact ih inner (L - 1) _ h
      | Array l =>
        rw [encodeC_array hd, hdec] at h ⊢
        rw [encodeC_array hn, hdecn]
        exact encodeArr_some_to_none ih l (L - 1) _ h
      | Map pairs =>
        rcases hk : encodeKeys fuel pairs (decDepth (some L)) with e | encPairs
        · rw [encodeC_map_err hd hk] at h; simp at h
        · by_cases hdup : (encPairs.insertionSort lexLeP).length
            = (dedupAdj (encPairs.insertionSort lexLeP)).length
          · have hkn : encodeKeys fuel pairs (decDepth none) = .ok encPairs := by
              rw [hdecn]
              exact encodeKeys_some_to_none ih pairs (L - 1) (by rw [← hdec, hk])
            rw [encodeC_map_ok hd hk hdup] at h ⊢
            rw [encodeC_map_ok hn hkn hdup]
            rw [hdec] at h ⊢
            rw [hdecn]
            exact emitPairs_some_to_none ih _ (L - 1) _ h
          · rw [encodeC_map_dup hd hk hdup] at h; simp at h

/-! ## Canonical bytes and the duplicate-key predicate -/

/-- The canonical encoded bytes of a value: unlimited depth, sufficient fuel. -/
def canonBytes (v : Value) : List Nat := (encodeC (height v + 1) v none []).1

/-- Encoding succeeds at unlimited depth. -/
def encOkNone (v : Value) : Prop := (encodeC (height v + 1) v none []).2 = none

mutual

/-- `true` iff some `Map` node inside the value contains two pairs whose keys
encode to identical byte sequences. -/
def hasDup : Value → Bool
  | .Unsigned _ => false
  | .Negative _ => false
  | .ByteString _ => false
  | .TextString _ => false
  | .Array l => hasDupL l
  | .Map pairs => hasDupP pairs || !decide ((pairs.map fun p => canonBytes p.1).Nodup)
  | .Tag _ v => hasDup v
  | .Simple _ => false

/-- `hasDup` over array elements. -/
def hasDupL : List Value → Bool
  | [] => false
  | v :: rest => hasDup v || hasDupL rest

/-- `hasDup` over map pairs (keys and values). -/
def hasDupP : List (Value × Value) → Bool
  | [] => false
  | (k, v) :: rest => hasDup k || hasDup v || hasDupP rest

end

theorem hasDupL_eq_false : ∀ {l : List Value}, hasDupL l = false ↔ ∀ v ∈ l, hasDup v = false
  | [] => by simp [hasDupL]
  | v :: rest => by
    rw [hasDupL, Bool.or_eq_false_iff]
    rw [hasDupL_eq_false]
    constructor
    · rintro ⟨h1, h2⟩ u hu
      rcases List.mem_cons.mp hu with h | h
      · exact h ▸ h1
      · exact h2 u h
    · intro h
      exact ⟨h v (List.mem_cons_self _ _), fun u hu => h u (List.mem_cons_of_mem _ hu)⟩

theorem hasDupP_eq_false : ∀ {l : List (Value × Value)},
    hasDupP l = false ↔ ∀ p ∈ l, hasDup p.1 = false ∧ hasDup p.2 = false
  | [] => by simp [hasDupP]
  | (k, v) :: rest => by
    rw [hasDupP, Bool.or_eq_false_iff, Bool.or_eq_false_iff]
    rw [hasDupP_eq_false]
    constructor
    · rintro ⟨⟨h1, h2⟩, h3⟩ p hp
      rcases List.mem_cons.mp hp with h | h
      · rw [h]; exact ⟨h1, h2⟩
      · exact h3 p h
    · intro h
      exact ⟨⟨(h (k, v) (List.mem_cons_self _ _)).1, (h (k, v) (List.mem_cons_self _ _)).2⟩,
        fun p hp => h p (List.mem_cons_of_mem _ hp)⟩

/-- Decompose a list at the first element satisfying a decidable predicate. -/
theorem exists_first {α : Type} (p : α → Prop) [DecidablePred p] :
    ∀ {l : List α}, (∃ x ∈ l, p x) → ∃ l1 u l2, l = l1 ++ u :: l2 ∧ p u ∧ ∀ x ∈ l1, ¬ p x := by
  intro l
  induction l with
  | nil => rintro ⟨x, hx, -⟩; exact absurd hx (List.not_mem_nil x)
  | cons a rest ih =>
    intro hex
    by_cases ha : p a
    · exact ⟨[], a, rest, rfl, ha, fun x hx => absurd hx (List.not_mem_nil x)⟩
    · rcases hex with ⟨x, hx, hpx⟩
      rcases List.mem_cons.mp hx with h | h
      · exact absurd (h ▸ hpx) ha
      · rcases ih ⟨x, h, hpx⟩ with ⟨l1, u, l2, hsplit, hu, hl1⟩
        refine ⟨a :: l1, u, l2, by rw [hsplit, List.cons_append], hu, ?_⟩
        intro y hy
        rcases List.mem_cons.mp hy with h' | h'
        · exact h' ▸ ha
        · exact hl1 y h'

/-- On success, the appended bytes equal the canonical bytes `canonBytes`,
whatever the fuel (above the height) and whatever the depth budget. -/
theorem encodeC_canon_bytes {fuel : Nat} {v : Value} {d : Option Int}
    (hfuel : height v < fuel) (hok : (encodeC fuel v d []).2 = none) :
    (encodeC fuel v d []).1 = canonBytes v := by
  have h1 : encodeC fuel v none [] = encodeC (height v + 1) v none [] :=
    encodeC_fuel_eq fuel v none [] hfuel (by omega)
  cases d with
  | none => rw [canonBytes, h1]
  | some L => rw [encodeC_some_to_none fuel v L [] hok, canonBytes, h1]

/-- In a list sorted by encoded key, duplicate keys show up adjacently. -/
theorem sorted_dup_not_chain : ∀ {l : List (List Nat × Value)},
    List.Pairwise (fun a b => lexLe a.1 b.1 = true) l →
    ¬ (l.map Prod.fst).Nodup →
    ¬ l.Chain' (fun a b => a.1 ≠ b.1) := by
  intro l
  induction l with
  | nil => intro _ hnd; exact absurd List.nodup_nil hnd
  | cons a rest ih =>
    intro hs hnd hchain
    rw [List.map_cons, List.nodup_cons] at hnd
    rw [List.chain'_cons'] at hchain
    rcases List.pairwise_cons.mp hs with ⟨ha, hrest⟩
    by_cases hmem : a.1 ∈ rest.map Prod.fst
    · rcases List.mem_map.mp hmem with ⟨b, hb, hbe⟩
      cases rest with
      | nil => exact absurd hb (List.not_mem_nil b)
      | cons c rest' =>
        have hac : a.1 ≠ c.1 := hchain.1 c rfl
        rcases List.mem_cons.mp hb with h | h
        · exact hac (by rw [← hbe, h])
        · have h1 : lexLe a.1 c.1 = true := ha c (List.mem_cons_self _ _)
          have h2 : lexLe c.1 b.1 = true :=
            (List.pairwise_cons.mp hrest).1 b h
          have h3 : lexLe c.1 a.1 = true := by rw [hbe] at h2; exact h2
          exact hac (lexLe_antisymm h1 h3)
    · have hnd' : ¬ (rest.map Prod.fst).Nodup := fun hn => hnd ⟨hmem, hn⟩
      exact ih hrest hnd' hchain.2

/-! ## Master success lemma: no duplicate keys + sufficient budget ⇒ `Ok` -/

theorem encodeC_ok : ∀ (fuel : Nat) (v : Value) (d : Option Int) (buf : List Nat),
    height v < fuel → hasDup v = false →
    (∀ L, d = some L → (height v : Int) ≤ L) →
    (encodeC fuel v d buf).2 = none := by
  intro fuel
  induction fuel with
  | zero => intro v d buf h1 _ _; omega
  | succ fuel ih =>
    intro v d buf hfuel hdup hdep
    have hd : depthExceeded d = false := by
      cases d with
      | none => rfl
      | some L =>
        have := hdep L rfl
        have h0 : (0 : Int) ≤ L := le_trans (by positivity) this
        simp [depthExceeded]
        omega
    cases v with
    | Unsigned u => rw [encodeC_unsigned hd]
    | Negative n => rw [encodeC_negative hd]
    | ByteString b => rw [encodeC_bytes hd]
    | TextString s => rw [encodeC_text hd]
    | Simple s => rw [encodeC_simple hd]
    | Tag t inner =>
      rw [encodeC_tag hd]
      rw [height] at hfuel hdep
      rw [hasDup] at hdup
      refine ih inner (decDepth d) _ (by omega) hdup ?_
      intro L' hL'
      cases d with
      | none => simp [decDepth] at hL'
      | some L =>
        simp [decDepth] at hL'
        have := hdep L rfl
        omega
    | Array l =>
      rw [encodeC_array hd]
      rw [height] at hfuel hdep
      rw [hasDup] at hdup
      have hall : ∀ u ∈ l, (encodeC fuel u (decDepth d) []).2 = none := by
        intro u hu
        have hh := heightL_mem hu
        refine ih u (decDepth d) [] (by omega) (hasDupL_eq_false.mp hdup u hu) ?_
        intro L' hL'
        cases d with
        | none => simp [decDepth] at hL'
        | some L =>
          simp [decDepth] at hL'
          have := hdep L rfl
          omega
      rw [encodeArr_ok_of_all hall]
    | Map pairs =>
      rw [height] at hfuel hdep
      have hdup' := hdup
      rw [hasDup] at hdup'
      have hP : hasDupP pairs = false := by
        cases hQ : hasDupP pairs
        · rfl
        · rw [hQ] at hdup'; simp at hdup'
      have hNodup : (pairs.map fun p => canonBytes p.1).Nodup := by
        by_contra hn
        rw [hP] at hdup'
        simp [hn] at hdup'
      have hkeyok : ∀ p ∈ pairs, (encodeC fuel p.1 (decDepth d) []).2 = none := by
        intro p hp
        have hh := heightP_mem_key (k := p.1) (v := p.2) (by simpa using hp)
        refine ih p.1 (decDepth d) [] (by omega) ((hasDupP_eq_false.mp hP p hp).1) ?_
        intro L' hL'
        cases d with
        | none => simp [decDepth] at hL'
        | some L =>
          simp [decDepth] at hL'
          have := hdep L rfl
          omega
      have hk := encodeKeys_ok_of_all hkeyok
      set encPairs := pairs.map fun p => ((encodeC fuel p.1 (decDepth d) []).1, p.2) with hEnc
      have hkeysEq : encPairs.map Prod.fst = pairs.map fun p => canonBytes p.1 := by
        rw [hEnc, List.map_map]
        refine List.map_congr_left ?_
        intro p hp
        exact encodeC_canon_bytes
          (by have := heightP_mem_key (k := p.1) (v := p.2) (by simpa using hp); omega)
          (hkeyok p hp)
      set sorted := encPairs.insertionSort lexLeP with hSort
      have hsortNodup : (sorted.map Prod.fst).Nodup := by
        have hperm : (sorted.map Prod.fst).Perm (encPairs.map Prod.fst) :=
          (List.perm_insertionSort lexLeP encPairs).map Prod.fst
        rw [hperm.nodup_iff, hkeysEq]
        exact hNodup
      have hchain : sorted.Chain' fun a b => a.1 ≠ b.1 := by
        refine List.Pairwise.chain' ?_
        exact List.pairwise_map.mp hsortNodup
      have hded : dedupAdj sorted = sorted := dedupAdj_eq_self sorted hchain
      have hlen : sorted.length = (dedupAdj sorted).length := by rw [hded]
      rw [encodeC_map_ok hd hk hlen]
      have hvalok : ∀ p ∈ dedupAdj sorted, (encodeC fuel p.2 (decDepth d) []).2 = none := by
        intro p hp
        have hmem : p ∈ encPairs :=
          ((List.perm_insertionSort lexLeP encPairs).mem_iff).mp (dedupAdj_subset hp)
        rw [hEnc] at hmem
        rcases List.mem_map.mp hmem with ⟨q, hq, hqe⟩
        have hh := heightP_mem_val (k := q.1) (v := q.2) (by simpa using hq)
        have hsnd : p.2 = q.2 := by rw [← hqe]
        rw [hsnd]
        refine ih q.2 (decDepth d) [] (by omega) ((hasDupP_eq_false.mp hP q hq).2) ?_
        intro L' hL'
        cases d with
        | none => simp [decDepth] at hL'
        | some L =>
          simp [decDepth] at hL'
          have := hdep L rfl
          omega
      rw [emitPairs_ok_of_all hvalok]

/-! ## Helpers for the too-deep and duplicate-key master lemmas -/

theorem heightL_le {n : Nat} : ∀ {l : List Value},
    (∀ v ∈ l, 1 + height v ≤ n) → heightL l ≤ n
  | [], _ => by rw [heightL]; omega
  | v :: rest, h => by
    rw [heightL]
    have h1 := h v (List.mem_cons_self _ _)
    have h2 := heightL_le fun u hu => h u (List.mem_cons_of_mem _ hu)
    omega

theorem heightP_le {n : Nat} : ∀ {l : List (Value × Value)},
    (∀ q ∈ l, 1 + height q.1 ≤ n ∧ 1 + height q.2 ≤ n) → heightP l ≤ n
  | [], _ => by rw [heightP]; omega
  | (k, v) :: rest, h => by
    rw [heightP]
    have h1 := h (k, v) (List.mem_cons_self _ _)
    have h2 := heightP_le fun q hq => h q (List.mem_cons_of_mem _ hq)
    simp only [] at h1
    omega

theorem sorted_pairs_pairwise (encPairs : List (List Nat × Value)) :
    List.Pairwise (fun a b : List Nat × Value => lexLe a.1 b.1 = true)
      (encPairs.insertionSort lexLeP) :=
  List.sorted_insertionSort lexLeP encPairs

/-- With pairwise-distinct canonical key bytes, the sorted pair list has no
adjacent duplicates, so `dedup_by` leaves it unchanged. -/
theorem dedupAdj_sorted_eq {fuel : Nat} {pairs : List (Value × Value)} {d : Option Int}
    (hNodup : (pairs.map fun p => canonBytes p.1).Nodup)
    (hkeyok : ∀ p ∈ pairs, (encodeC fuel p.1 d []).2 = none)
    (hfuelk : ∀ p ∈ pairs, height p.1 < fuel) :
    dedupAdj ((pairs.map fun p => ((encodeC fuel p.1 d []).1, p.2)).insertionSort lexLeP)
      = (pairs.map fun p => ((encodeC fuel p.1 d []).1, p.2)).insertionSort lexLeP := by
  set encPairs := pairs.map fun p => ((encodeC fuel p.1 d []).1, p.2) with hEnc
  have hkeysEq : encPairs.map Prod.fst = pairs.map fun p => canonBytes p.1 := by
    rw [hEnc, List.map_map]
    refine List.map_congr_left ?_
    intro p hp
    exact encodeC_canon_bytes (hfuelk p hp) (hkeyok p hp)
  set sorted := encPairs.insertionSort lexLeP with hSort
  have hsortNodup : (sorted.map Prod.fst).Nodup := by
    have hperm : (sorted.map Prod.fst).Perm (encPairs.map Prod.fst) :=
      (List.perm_insertionSort lexLeP encPairs).map Prod.fst
    rw [hperm.nodup_iff, hkeysEq]
    exact hNodup
  exact dedupAdj_eq_self sorted (List.Pairwise.chain' (List.pairwise_map.mp hsortNodup))

/-- With colliding canonical key bytes, `dedup_by` strictly shortens the
sorted pair list. -/
theorem dedupAdj_sorted_lt {fuel : Nat} {pairs : List (Value × Value)} {d : Option Int}
    (hnd : ¬ (pairs.map fun p => canonBytes p.1).Nodup)
    (hkeyok : ∀ p ∈ pairs, (encodeC fuel p.1 d []).2 = none)
    (hfuelk : ∀ p ∈ pairs, height p.1 < fuel) :
    (dedupAdj ((pairs.map fun p => ((encodeC fuel p.1 d []).1, p.2)).insertionSort lexLeP)).length
      < ((pairs.map fun p => ((encodeC fuel p.1 d []).1, p.2)).insertionSort lexLeP).length := by
  set encPairs := pairs.map fun p => ((encodeC fuel p.1 d []).1, p.2) with hEnc
  have hkeysEq : encPairs.map Prod.fst = pairs.map fun p => canonBytes p.1 := by
    rw [hEnc, List.map_map]
    refine List.map_congr_left ?_
    intro p hp
    exact encodeC_canon_bytes (hfuelk p hp) (hkeyok p hp)
  set sorted := encPairs.insertionSort lexLeP with hSort
  have hsortNd : ¬ (sorted.map Prod.fst).Nodup := by
    have hperm : (sorted.map Prod.fst).Perm (encPairs.map Prod.fst) :=
      (List.perm_insertionSort lexLeP encPairs).map Prod.fst
    rw [hperm.nodup_iff, hkeysEq]
    exact hnd
  exact dedupAdj_length_lt sorted
    (sorted_dup_not_chain (sorted_pairs_pairwise encPairs) hsortNd)

/-- Every element surviving sort and dedup carries the value of some original
pair. -/
theorem mem_sortedPairs {fuel : Nat} {pairs : List (Value × Value)} {d : Option Int}
    {p : List Nat × Value}
    (hp : p ∈ dedupAdj ((pairs.map fun r => ((encodeC fuel r.1 d []).1, r.2)).insertionSort lexLeP)) :
    ∃ r ∈ pairs, p.2 = r.2 := by
  have hmem : p ∈ pairs.map fun r => ((encodeC fuel r.1 d []).1, r.2) :=
    ((List.perm_insertionSort lexLeP _).mem_iff).mp (dedupAdj_subset hp)
  rcases List.mem_map.mp hmem with ⟨r, hr, hre⟩
  exact ⟨r, hr, by rw [← hre]⟩

/-! ## Master too-deep lemma: without duplicates, a short budget fails with
`TooMuchNesting` -/

theorem encodeC_tooDeep : ∀ (fuel : Nat) (v : Value) (L : Int) (buf : List Nat),
    height v < fuel → hasDup v = false → L < (height v : Int) →
    (encodeC fuel v (some L) buf).2 = some .TooMuchNesting := by
  intro fuel
  induction fuel with
  | zero => intro v L buf h _ _; omega
  | succ fuel ih =>
    intro v L buf hfuel hdup hL
    by_cases hneg : L < 0
    · rw [encodeC_depth (by simp [depthExceeded]; omega)]
    · have hd : depthExceeded (some L) = false := by simp [depthExceeded]; omega
      obtain ⟨n, rfl⟩ : ∃ n : Nat, L = (n : Int) :=
        ⟨L.toNat, (Int.toNat_of_nonneg (by omega)).symm⟩
      have hdec : decDepth (some (n : Int)) = some ((n : Int) - 1) := rfl
      cases v with
      | Unsigned u => rw [height] at hL; omega
      | Negative m => rw [height] at hL; omega
      | ByteString b => rw [height] at hL; omega
      | TextString s => rw [height] at hL; omega
      | Simple s => rw [height] at hL; omega
      | Tag t inner =>
        rw [encodeC_tag hd, hdec]
        rw [height] at hfuel hL
        rw [hasDup] at hdup
        exact ih inner ((n : Int) - 1) _ (by omega) hdup (by omega)
      | Array l =>
        rw [encodeC_array hd, hdec]
        rw [height] at hfuel hL
        rw [hasDup] at hdup
        have hex : ∃ u ∈ l, n < 1 + height u := by
          by_contra hall
          push_neg at hall
          have := heightL_le fun v hv => hall v hv
          omega
        rcases exists_first (fun u => n < 1 + height u) hex with ⟨l1, u, l2, hsplit, hu, hl1⟩
        subst hsplit
        have hall1 : ∀ x ∈ l1, (encodeC fuel x (some ((n : Int) - 1)) []).2 = none := by
          intro x hx
          have hb := heightL_mem (List.mem_append_left (u :: l2) hx)
          have hshallow := hl1 x hx
          refine encodeC_ok fuel x (some ((n : Int) - 1)) [] (by omega)
            (hasDupL_eq_false.mp hdup x (List.mem_append_left (u :: l2) hx)) ?_
          intro L' hL'
          cases hL'
          omega
        have huf : (encodeC fuel u (some ((n : Int) - 1)) []).2 = some .TooMuchNesting := by
          have hb := heightL_mem (List.mem_append_right l1 (List.mem_cons_self u l2))
          exact ih u ((n : Int) - 1) []
            (by omega)
            (hasDupL_eq_false.mp hdup u (List.mem_append_right l1 (List.mem_cons_self u l2)))
            (by omega)
        exact encodeArr_err_of_first hall1 huf
      | Map pairs =>
        rw [height] at hfuel hL
        have hdup' := hdup
        rw [hasDup] at hdup'
        have hP : hasDupP pairs = false := by
          cases hQ : hasDupP pairs
          · rfl
          · rw [hQ] at hdup'; simp at hdup'
        have hNodup : (pairs.map fun p => canonBytes p.1).Nodup := by
          by_contra hn
          rw [hP] at hdup'
          simp [hn] at hdup'
        by_cases hkey : ∃ q ∈ pairs, n < 1 + height q.1
        · rcases exists_first (fun q : Value × Value => n < 1 + height q.1) hkey
            with ⟨p1, q, p2, hsplit, hq, hp1⟩
          subst hsplit
          have hall1 : ∀ r ∈ p1, (encodeC fuel r.1 (some ((n : Int) - 1)) []).2 = none := by
            intro r hr
            have hb := heightP_mem_key (k := r.1) (v := r.2)
              (List.mem_append_left (q :: p2) hr)
            have hshallow := hp1 r hr
            refine encodeC_ok fuel r.1 (some ((n : Int) - 1)) [] (by omega)
              ((hasDupP_eq_false.mp hP r (List.mem_append_left (q :: p2) hr)).1) ?_
            intro L' hL'
            cases hL'
            omega
          have hqf : (encodeC fuel q.1 (some ((n : Int) - 1)) []).2 = some .TooMuchNesting := by
            have hb := heightP_mem_key (k := q.1) (v := q.2)
              (List.mem_append_right p1 (List.mem_cons_self q p2))
            exact ih q.1 ((n : Int) - 1) []
              (by omega)
              ((hasDupP_eq_false.mp hP q (List.mem_append_right p1 (List.mem_cons_self q p2))).1)
              (by omega)
          rw [encodeC_map_err hd (by rw [hdec]; exact encodeKeys_err_of_first hall1 hqf)]
        · push_neg at hkey
          have hfuelk : ∀ p ∈ pairs, height p.1 < fuel := by
            intro p hp
            have := heightP_mem_key (k := p.1) (v := p.2) (by simpa using hp)
            omega
          have hkeyok : ∀ p ∈ pairs, (encodeC fuel p.1 (decDepth (some (n : Int))) []).2 = none := by
            intro p hp
            have hb := hkey p hp
            rw [hdec]
            refine encodeC_ok fuel p.1 (some ((n : Int) - 1)) [] (hfuelk p hp)
              ((hasDupP_eq_false.mp hP p hp).1) ?_
            intro L' hL'
            cases hL'
            omega
          have hk := encodeKeys_ok_of_all hkeyok
          have hded := dedupAdj_sorted_eq hNodup hkeyok hfuelk
          rw [encodeC_map_ok hd hk (by rw [hded])]
          have hexv : ∃ q ∈ pairs, n < 1 + height q.2 := by
            by_contra hall
            push_neg at hall
            have := heightP_le fun q hq => ⟨hkey q hq, hall q hq⟩
            omega
          have hexd : ∃ p ∈ dedupAdj ((pairs.map fun p =>
              ((encodeC fuel p.1 (decDepth (some (n : Int))) []).1, p.2)).insertionSort lexLeP), n < 1 + height p.2 := by
            rcases hexv with ⟨q, hq, hqd⟩
            refine ⟨((encodeC fuel q.1 (decDepth (some (n : Int))) []).1, q.2), ?_, hqd⟩
            rw [hded]
            rw [(List.perm_insertionSort lexLeP _).mem_iff]
            exact List.mem_map.mpr ⟨q, hq, rfl⟩
          rcases exists_first (fun p : List Nat × Value => n < 1 + height p.2) hexd
            with ⟨l1, u, l2, hsplit, hu, hl1⟩
          rw [hsplit]
          have hmemd : ∀ x, x ∈ l1 ∨ x ∈ u :: l2 → ∃ r ∈ pairs, x.2 = r.2 := by
            intro x hx
            have hxm : x ∈ dedupAdj ((pairs.map fun p =>
                ((encodeC fuel p.1 (decDepth (some (n : Int))) []).1, p.2)).insertionSort lexLeP) := by
              rw [hsplit]
              rcases hx with hx | hx
              · exact List.mem_append_left _ hx
              · exact List.mem_append_right _ hx
            exact mem_sortedPairs hxm
          have hall1 : ∀ x ∈ l1, (encodeC fuel x.2 (some ((n : Int) - 1)) []).2 = none := by
            intro x hx
            rcases hmemd x (Or.inl hx) with ⟨r, hr, hre⟩
            have hb := heightP_mem_val (k := r.1) (v := r.2) (by simpa using hr)
            have hshallow := hl1 x hx
            rw [hre]
            refine encodeC_ok fuel r.2 (some ((n : Int) - 1)) []
              (by omega) ((hasDupP_eq_false.mp hP r hr).2) ?_
            intro L' hL'
            cases hL'
            rw [hre] at hshallow
            omega
          have huf : (encodeC fuel u.2 (some ((n : Int) - 1)) []).2 = some .TooMuchNesting := by
            rcases hmemd u (Or.inr (List.mem_cons_self u l2)) with ⟨r, hr, hre⟩
            have hb := heightP_mem_val (k := r.1) (v := r.2) (by simpa using hr)
            rw [hre]
            refine ih r.2 ((n : Int) - 1) [] (by omega)
              ((hasDupP_eq_false.mp hP r hr).2) ?_
            rw [hre] at hu
            omega
          rw [hdec]
          exact emitPairs_err_of_first hall1 huf

/-! ## Master duplicate lemma: with unlimited depth, a duplicate-key map
anywhere in the value fails with `DuplicateMapKey` -/

theorem encodeC_dup : ∀ (fuel : Nat) (v : Value) (buf : List Nat),
    height v < fuel → hasDup v = true →
    (encodeC fuel v none buf).2 = some .DuplicateMapKey := by
  intro fuel
  induction fuel with
  | zero => intro v buf h _; omega
  | succ fuel ih =>
    intro v buf hfuel hdup
    have hd : depthExceeded none = false := rfl
    have hdec : decDepth none = none := rfl
    cases v with
    | Unsigned u => rw [hasDup] at hdup; exact Bool.noConfusion hdup
    | Negative m => rw [hasDup] at hdup; exact Bool.noConfusion hdup
    | ByteString b => rw [hasDup] at hdup; exact Bool.noConfusion hdup
    | TextString s => rw [hasDup] at hdup; exact Bool.noConfusion hdup
    | Simple s => rw [hasDup] at hdup; exact Bool.noConfusion hdup
    | Tag t inner =>
      rw [encodeC_tag hd, hdec]
      rw [height] at hfuel
      rw [hasDup] at hdup
      exact ih inner _ (by omega) hdup
    | Array l =>
      rw [encodeC_array hd, hdec]
      rw [height] at hfuel
      rw [hasDup] at hdup
      have hex : ∃ u ∈ l, hasDup u = true := by
        by_contra hall
        push_neg at hall
        have hfl : hasDupL l = false := hasDupL_eq_false.mpr fun v hv => by
          cases hb : hasDup v
          · rfl
          · exact absurd hb (hall v hv)
        rw [hfl] at hdup
        exact Bool.noConfusion hdup
      rcases exists_first (fun u => hasDup u = true) hex with ⟨l1, u, l2, hsplit, hu, hl1⟩
      subst hsplit
      have hall1 : ∀ x ∈ l1, (encodeC fuel x none []).2 = none := by
        intro x hx
        have hb := heightL_mem (List.mem_append_left (u :: l2) hx)
        refine encodeC_ok fuel x none [] (by omega) ?_ (fun L' hL' => by cases hL')
        cases hb' : hasDup x
        · rfl
        · exact absurd hb' (hl1 x hx)
      have huf : (encodeC fuel u none []).2 = some .DuplicateMapKey := by
        have hb := heightL_mem (List.mem_append_right l1 (List.mem_cons_self u l2))
        exact ih u [] (by omega) hu
      exact encodeArr_err_of_first hall1 huf
    | Map pairs =>
      rw [height] at hfuel
      rw [hasDup] at hdup
      by_cases hkdup : ∃ q ∈ pairs, hasDup q.1 = true
      · rcases exists_first (fun q : Value × Value => hasDup q.1 = true) hkdup
          with ⟨p1, q, p2, hsplit, hq, hp1⟩
        subst hsplit
        have hall1 : ∀ r ∈ p1, (encodeC fuel r.1 none []).2 = none := by
          intro r hr
          have hb := heightP_mem_key (k := r.1) (v := r.2)
            (List.mem_append_left (q :: p2) hr)
          refine encodeC_ok fuel r.1 none [] (by omega) ?_ (fun L' hL' => by cases hL')
          cases hb' : hasDup r.1
          · rfl
          · exact absurd hb' (hp1 r hr)
        have hqf : (encodeC fuel q.1 none []).2 = some .DuplicateMapKey := by
          have hb := heightP_mem_key (k := q.1) (v := q.2)
            (List.mem_append_right p1 (List.mem_cons_self q p2))
          exact ih q.1 [] (by omega) hq
        rw [encodeC_map_err hd (by rw [hdec]; exact encodeKeys_err_of_first hall1 hqf)]
      · push_neg at hkdup
        have hkfalse : ∀ q ∈ pairs, hasDup q.1 = false := by
          intro q hq
          cases hb : hasDup q.1
          · rfl
          · exact absurd hb (hkdup q hq)
        have hfuelk : ∀ p ∈ pairs, height p.1 < fuel := by
          intro p hp
          have := heightP_mem_key (k := p.1) (v := p.2) (by simpa using hp)
          omega
        have hkeyok : ∀ p ∈ pairs, (encodeC fuel p.1 (decDepth none) []).2 = none := by
          intro p hp
          rw [hdec]
          exact encodeC_ok fuel p.1 none [] (hfuelk p hp) (hkfalse p hp)
            (fun L' hL' => by cases hL')
        have hk := encodeKeys_ok_of_all hkeyok
        by_cases hN : (pairs.map fun p => canonBytes p.1).Nodup
        · have hPdup : hasDupP pairs = true := by
            rcases hb : hasDupP pairs
            · rw [hb] at hdup
              simp [hN] at hdup
            · rfl
          have hexv : ∃ q ∈ pairs, hasDup q.2 = true := by
            by_contra hall
            push_neg at hall
            have : hasDupP pairs = false := hasDupP_eq_false.mpr fun q hq =>
              ⟨hkfalse q hq, by
                cases hb : hasDup q.2
                · rfl
                · exact absurd hb (hall q hq)⟩
            rw [this] at hPdup
            exact Bool.noConfusion hPdup
          have hded := dedupAdj_sorted_eq hN hkeyok hfuelk
          rw [encodeC_map_ok hd hk (by rw [hded])]
          have hexd : ∃ p ∈ dedupAdj ((pairs.map fun p =>
              ((encodeC fuel p.1 (decDepth none) []).1, p.2)).insertionSort lexLeP), hasDup p.2 = true := by
            rcases hexv with ⟨q, hq, hqd⟩
            refine ⟨((encodeC fuel q.1 (decDepth none) []).1, q.2), ?_, hqd⟩
            rw [hded]
            rw [(List.perm_insertionSort lexLeP _).mem_iff]
            exact List.mem_map.mpr ⟨q, hq, rfl⟩
          rcases exists_first (fun p : List Nat × Value => hasDup p.2 = true) hexd
            with ⟨l1, u, l2, hsplit, hu, hl1⟩
          rw [hsplit]
          have hmemd : ∀ x, x ∈ l1 ∨ x ∈ u :: l2 → ∃ r ∈ pairs, x.2 = r.2 := by
            intro x hx
            have hxm : x ∈ dedupAdj ((pairs.map fun p =>
                ((encodeC fuel p.1 (decDepth none) []).1, p.2)).insertionSort lexLeP) := by
              rw [hsplit]
              rcases hx with hx | hx
              · exact List.mem_append_left _ hx
              · exact List.mem_append_right _ hx
            exact mem_sortedPairs hxm
          have hall1 : ∀ x ∈ l1, (encodeC fuel x.2 none []).2 = none := by
            intro x hx
            rcases hmemd x (Or.inl hx) with ⟨r, hr, hre⟩
            have hb := heightP_mem_val (k := r.1) (v := r.2) (by simpa using hr)
            rw [hre]
            refine encodeC_ok fuel r.2 none [] (by omega) ?_ (fun L' hL' => by cases hL')
            cases hb' : hasDup r.2
            · rfl
            · rw [← hre] at hb'
              exact absurd hb' (hl1 x hx)
          have huf : (encodeC fuel u.2 none []).2 = some .DuplicateMapKey := by
            rcases hmemd u (Or.inr (List.mem_cons_self u l2)) with ⟨r, hr, hre⟩
            have hb := heightP_mem_val (k := r.1) (v := r.2) (by simpa using hr)
            rw [hre]
            refine ih r.2 [] (by omega) ?_
            rw [← hre]
            exact hu
          rw [hdec]
          exact emitPairs_err_of_first hall1 huf
        · have hlt := dedupAdj_sorted_lt hN hkeyok hfuelk
          rw [encodeC_map_dup hd hk (by omega)]

/-! ## Remaining machinery for the claim theorems -/

theorem emitPairs_ok_elim {fuel : Nat} : ∀ {l : List (List Nat × Value)} {d : Option Int}
    {buf : List Nat}, (emitPairs fuel l d buf).2 = none →
    ∀ p ∈ l, (encodeC fuel p.2 d []).2 = none := by
  intro l
  induction l with
  | nil => intro d buf _ p hp; exact absurd hp (List.not_mem_nil p)
  | cons q rest ih =>
    rcases q with ⟨ek, v⟩
    intro d buf hok p hp
    rcases he : encodeC fuel v d (buf ++ ek) with ⟨o, e⟩
    cases e with
    | some err =>
      rw [emitPairs, he] at hok
      simp at hok
    | none =>
      rw [emitPairs, he] at hok
      simp only [] at hok
      rcases List.mem_cons.mp hp with h | h
      · have : (encodeC fuel v d (buf ++ ek)).2 = none := by rw [he]
        rw [encodeC_frame] at this
        simp only [] at this
        rw [h]
        exact this
      · exact ih hok p h

/-- Two permutations of the same pairs, both sorted by encoded key, with
pairwise-distinct keys, are the same list. -/
theorem sorted_perm_nodup_eq : ∀ {l l' : List (List Nat × Value)},
    l.Perm l' →
    List.Pairwise (fun a b : List Nat × Value => lexLe a.1 b.1 = true) l →
    List.Pairwise (fun a b : List Nat × Value => lexLe a.1 b.1 = true) l' →
    (l.map Prod.fst).Nodup →
    l = l' := by
  intro l
  induction l with
  | nil => intro l' hp _ _ _; exact (hp.symm.eq_nil).symm
  | cons a rest ih =>
    intro l' hp hs hs' hnd
    cases l' with
    | nil => exact absurd hp.eq_nil (by simp)
    | cons b rest' =>
      rw [List.map_cons, List.nodup_cons] at hnd
      have hab : a = b := by
        have hbmem : b ∈ a :: rest := hp.symm.subset (List.mem_cons_self b rest')
        rcases List.mem_cons.mp hbmem with h | hbrest
        · exact h.symm
        · have hamem : a ∈ b :: rest' := hp.subset (List.mem_cons_self a rest)
          rcases List.mem_cons.mp hamem with h | harest'
          · exact h
          · have h1 : lexLe a.1 b.1 = true := (List.pairwise_cons.mp hs).1 b hbrest
            have h2 : lexLe b.1 a.1 = true := (List.pairwise_cons.mp hs').1 a harest'
            have : a.1 = b.1 := lexLe_antisymm h1 h2
            exact absurd (List.mem_map.mpr ⟨b, hbrest, this.symm⟩) hnd.1
      subst hab
      have hrest : rest.Perm rest' := hp.cons_inv
      rw [ih hrest (List.pairwise_cons.mp hs).2 (List.pairwise_cons.mp hs').2 hnd.2]

/-- Transfer per-key success from the canonical per-key fuel to any
sufficient common fuel. -/
theorem keys_ok_transfer {fuel : Nat} {pairs : List (Value × Value)} {d : Option Int}
    (hfuelk : ∀ p ∈ pairs, height p.1 < fuel)
    (hok : ∀ p ∈ pairs, (write_nested p.1 [] d).2 = none) :
    ∀ p ∈ pairs, (encodeC fuel p.1 d []).2 = none := by
  intro p hp
  rw [@encodeC_fuel_eq fuel (height p.1 + 1) p.1 d [] (hfuelk p hp) (by omega)]
  exact hok p hp

theorem height_map (pairs : List (Value × Value)) :
    height (Value.Map pairs) = heightP pairs := by rw [height]

theorem write_nested_def (v : Value) (buf : List Nat) (d : Option Int) :
    write_nested v buf d = encodeC (height v + 1) v d buf := rfl

/-- Keys that all encode successfully but collide: the map encodes to
`DuplicateMapKey` with nothing appended. -/
theorem write_map_collision {pairs : List (Value × Value)} {d : Option Int} {buf : List Nat}
    (hd : depthExceeded d = false)
    (hok : ∀ p ∈ pairs, (write_nested p.1 [] (decDepth d)).2 = none)
    (hnd : ¬ (pairs.map fun p => canonBytes p.1).Nodup) :
    write_nested (.Map pairs) buf d = (buf, some .DuplicateMapKey) := by
  rw [write_nested_def, height_map]
  have hfuelk : ∀ p ∈ pairs, height p.1 < heightP pairs := by
    intro p hp
    have := heightP_mem_key (k := p.1) (v := p.2) (by simpa using hp)
    omega
  have hkeyok := keys_ok_transfer hfuelk hok
  have hk := encodeKeys_ok_of_all hkeyok
  have hlt := dedupAdj_sorted_lt hnd hkeyok hfuelk
  exact encodeC_map_dup hd hk (by omega) buf

/-- Encoding a map is invariant under permutation of its pairs, as long as
all keys encode successfully and no two keys share encoded bytes. -/
theorem write_map_perm {pairs pairs' : List (Value × Value)} {d : Option Int} {buf : List Nat}
    (hperm : pairs.Perm pairs')
    (hok : ∀ p ∈ pairs, (write_nested p.1 [] (decDepth d)).2 = none)
    (hnd : (pairs.map fun p => canonBytes p.1).Nodup) :
    write_nested (.Map pairs) buf d = write_nested (.Map pairs') buf d := by
  by_cases hd : depthExceeded d
  · rw [write_nested_def, write_nested_def]
    rw [encodeC_depth hd, encodeC_depth hd]
  · simp only [Bool.not_eq_true] at hd
    have hmax1 := le_max_left (heightP pairs) (heightP pairs')
    have hmax2 := le_max_right (heightP pairs) (heightP pairs')
    set F := max (heightP pairs) (heightP pairs') with hF
    have h1 : write_nested (.Map pairs) buf d = encodeC (F + 1) (.Map pairs) d buf := by
      rw [write_nested_def]
      exact @encodeC_fuel_eq (height (.Map pairs) + 1) (F + 1) _ d buf (by omega)
        (by rw [height_map]; omega)
    have h2 : write_nested (.Map pairs') buf d = encodeC (F + 1) (.Map pairs') d buf := by
      rw [write_nested_def]
      exact @encodeC_fuel_eq (height (.Map pairs') + 1) (F + 1) _ d buf (by omega)
        (by rw [height_map]; omega)
    rw [h1, h2]
    have hfuelk : ∀ p ∈ pairs, height p.1 < F := by
      intro p hp
      have := heightP_mem_key (k := p.1) (v := p.2) (by simpa using hp)
      omega
    have hfuelk' : ∀ p ∈ pairs', height p.1 < F := fun p hp =>
      hfuelk p (hperm.symm.subset hp)
    have hok' : ∀ p ∈ pairs', (write_nested p.1 [] (decDepth d)).2 = none := fun p hp =>
      hok p (hperm.symm.subset hp)
    have hkeyok := keys_ok_transfer hfuelk hok
    have hkeyok' := keys_ok_transfer hfuelk' hok'
    have hk := encodeKeys_ok_of_all hkeyok
    have hk' := encodeKeys_ok_of_all hkeyok'
    have hencEq : (pairs.map fun p => ((encodeC F p.1 (decDepth d) []).1, p.2))
        = pairs.map fun p => (canonBytes p.1, p.2) := by
      refine List.map_congr_left ?_
      intro p hp
      rw [encodeC_canon_bytes (hfuelk p hp) (hkeyok p hp)]
    have hencEq' : (pairs'.map fun p => ((encodeC F p.1 (decDepth d) []).1, p.2))
        = pairs'.map fun p => (canonBytes p.1, p.2) := by
      refine List.map_congr_left ?_
      intro p hp
      rw [encodeC_canon_bytes (hfuelk' p hp) (hkeyok' p hp)]
    have hsortEq : ((pairs.map fun p => ((encodeC F p.1 (decDepth d) []).1, p.2)).insertionSort lexLeP)
        = (pairs'.map fun p => ((encodeC F p.1 (decDepth d) []).1, p.2)).insertionSort lexLeP := by
      refine sorted_perm_nodup_eq ?_ (sorted_pairs_pairwise _) (sorted_pairs_pairwise _) ?_
      · refine ((List.perm_insertionSort lexLeP _).trans ?_).trans (List.perm_insertionSort lexLeP _).symm
        exact hperm.map _
      · have hp1 : ((((pairs.map fun p => ((encodeC F p.1 (decDepth d) []).1, p.2)).insertionSort lexLeP)).map Prod.fst).Perm
            ((pairs.map fun p => ((encodeC F p.1 (decDepth d) []).1, p.2)).map Prod.fst) :=
          (List.perm_insertionSort lexLeP _).map Prod.fst
        rw [hp1.nodup_iff, hencEq, List.map_map]
        exact hnd
    by_cases hdup : ((pairs.map fun p => ((encodeC F p.1 (decDepth d) []).1, p.2)).insertionSort lexLeP).length
        = (dedupAdj ((pairs.map fun p => ((encodeC F p.1 (decDepth d) []).1, p.2)).insertionSort lexLeP)).length
    · rw [encodeC_map_ok hd hk hdup, encodeC_map_ok hd hk' (by rw [← hsortEq]; exact hdup)]
      rw [← hsortEq]
    · rw [encodeC_map_dup hd hk hdup, encodeC_map_dup hd hk' (by rw [← hsortEq]; exact hdup)]

/-- On success, a map's output is its header followed by the pairs in
lexicographic order of their encoded keys. -/
theorem write_map_sorted_emit {pairs : List (Value × Value)} {d : Option Int} {buf : List Nat}
    (hd : depthExceeded d = false)
    (hok : ∀ p ∈ pairs, (write_nested p.1 [] (decDepth d)).2 = none)
    (hnd : (pairs.map fun p => canonBytes p.1).Nodup)
    (hsucc : (write_nested (.Map pairs) buf d).2 = none) :
    ∃ sp : List (List Nat × Value),
      (pairs.map fun p => (canonBytes p.1, p.2)).Perm sp
      ∧ List.Pairwise (fun a b : List Nat × Value => lexLe a.1 b.1 = true) sp
      ∧ (write_nested (.Map pairs) buf d).1
          = buf ++ headerBytes 5 pairs.length
              ++ (sp.map fun q => q.1 ++ canonBytes q.2).flatten := by
  rw [write_nested_def, height_map] at hsucc ⊢
  set F := heightP pairs with hF
  have hfuelk : ∀ p ∈ pairs, height p.1 < F := by
    intro p hp
    have := heightP_mem_key (k := p.1) (v := p.2) (by simpa using hp)
    omega
  have hkeyok := keys_ok_transfer hfuelk hok
  have hk := encodeKeys_ok_of_all hkeyok
  have hded := dedupAdj_sorted_eq hnd hkeyok hfuelk
  set sorted := (pairs.map fun p => ((encodeC F p.1 (decDepth d) []).1, p.2)).insertionSort lexLeP with hSort
  have hmain := encodeC_map_ok hd hk (by rw [hded]) buf
  rw [hmain] at hsucc ⊢
  rw [hded] at hsucc ⊢
  have hvalmem : ∀ p ∈ sorted, ∃ r ∈ pairs, p.2 = r.2 := by
    intro p hp
    exact mem_sortedPairs (by rw [hded]; exact hp)
  have hvalfuel : ∀ p ∈ sorted, height p.2 < F := by
    intro p hp
    rcases hvalmem p hp with ⟨r, hr, hre⟩
    have := heightP_mem_val (k := r.1) (v := r.2) (by simpa using hr)
    rw [hre]
    omega
  have hvalok := emitPairs_ok_elim hsucc
  rw [emitPairs_ok_of_all hvalok]
  have hlen : sorted.length = pairs.length := by
    rw [hSort, (List.perm_insertionSort lexLeP _).length_eq, List.length_map]
  refine ⟨sorted, ?_, sorted_pairs_pairwise _, ?_⟩
  · have hencEq : (pairs.map fun p => ((encodeC F p.1 (decDepth d) []).1, p.2))
        = pairs.map fun p => (canonBytes p.1, p.2) := by
      refine List.map_congr_left ?_
      intro p hp
      rw [encodeC_canon_bytes (hfuelk p hp) (hkeyok p hp)]
    rw [← hencEq]
    exact (List.perm_insertionSort lexLeP _).symm
  · simp only []
    rw [start_item_eq buf 5 sorted.length (by omega), hlen]
    have hbytesEq : (sorted.map fun p => p.1 ++ (encodeC F p.2 (decDepth d) []).1)
        = sorted.map fun q => q.1 ++ canonBytes q.2 := by
      refine List.map_congr_left ?_
      intro p hp
      rw [encodeC_canon_bytes (hvalfuel p hp) (hvalok p hp)]
    rw [hbytesEq, List.append_assoc]

/-! ## Claim theorems -/

/-- C2: for every major type `t` (0–7) and 64-bit magnitude `m`, the appended
item header is: `m ≤ 23` → the single byte `(t << 5) | m`; `m ≤ 255` → code
24 then 1 big-endian byte; `m ≤ 65535` → code 25 then 2 bytes; `m ≤ 2^32−1`
→ code 26 then 4 bytes; otherwise code 27 then 8 bytes (`headerBytes` is
exactly this case split).  In particular `Unsigned n` with `n ≤ 23` encodes
to the single byte `n`. -/
theorem claim_C2 (t m n : Nat) (buf buf2 : List Nat) (ht : t ≤ 7) (_hm : m < 2 ^ 64)
    (hn : n ≤ 23) :
    start_item buf t m = buf ++ headerBytes t m
    ∧ write (.Unsigned n) buf2 = (buf2 ++ [n], none) := by
  constructor
  · exact start_item_eq buf t m ht
  · rw [write, write_nested_def]
    rw [show height (Value.Unsigned n) + 1 = 0 + 1 from rfl]
    rw [encodeC_unsigned (by decide)]
    rw [start_item_eq buf2 0 n (by omega), headerBytes]
    rw [if_pos hn]
    norm_num

/-- C2 witness at `t = 1`, `m = 1000`, `n = 5`. -/
theorem claim_C2_witness :
    start_item [] 1 1000 = [] ++ headerBytes 1 1000
    ∧ write (.Unsigned 5) [] = ([] ++ [5], none) :=
  claim_C2 1 1000 5 [] [] (by decide) (by decide) (by decide)

/-- C4: the nesting limit is an exact boundary.  For a duplicate-free value
of depth `height v`, encoding with `Some L` succeeds whenever
`height v ≤ L` and fails with `TooMuchNesting` whenever `L < height v`. -/
theorem claim_C4 (v : Value) (L : Int) (buf : List Nat) (hdup : hasDup v = false) :
    ((height v : Int) ≤ L → (write_nested v buf (some L)).2 = none)
    ∧ (L < (height v : Int) → (write_nested v buf (some L)).2 = some .TooMuchNesting) := by
  constructor
  · intro hL
    rw [write_nested_def]
    exact encodeC_ok (height v + 1) v (some L) buf (by omega) hdup
      (fun L' hL' => by cases hL'; exact hL)
  · intro hL
    rw [write_nested_def]
    exact encodeC_tooDeep (height v + 1) v L buf (by omega) hdup hL

/-- C4 witness at the depth-1 value `[2]` with limits 1 and 0. -/
theorem claim_C4_witness :
    hasDup (.Array [.Unsigned 2]) = false
    ∧ (((height (Value.Array [.Unsigned 2]) : Int) ≤ 1 →
        (write_nested (.Array [.Unsigned 2]) [] (some 1)).2 = none)
      ∧ (1 < (height (Value.Array [.Unsigned 2]) : Int) →
        (write_nested (.Array [.Unsigned 2]) [] (some 1)).2 = some .TooMuchNesting))
    ∧ (((height (Value.Array [.Unsigned 2]) : Int) ≤ 0 →
        (write_nested (.Array [.Unsigned 2]) [] (some 0)).2 = none)
      ∧ (0 < (height (Value.Array [.Unsigned 2]) : Int) →
        (write_nested (.Array [.Unsigned 2]) [] (some 0)).2 = some .TooMuchNesting)) :=
  ⟨by decide, claim_C4 (.Array [.Unsigned 2]) 1 [] (by decide),
    claim_C4 (.Array [.Unsigned 2]) 0 [] (by decide)⟩

/-- C5: a `Negative` value with wire magnitude `n` (semantic integer
`−(n+1)`) encodes as the header with major type 1 and magnitude `n`; in
particular semantic −1000 encodes to `39 03 E7`. -/
theorem claim_C5 (n : Nat) (d : Option Int) (buf : List Nat) (hn : n < 2 ^ 63)
    (hd : depthExceeded d = false) :
    write_nested (.Negative (-(n + 1) : Int)) buf d = (buf ++ headerBytes 1 n, none)
    ∧ write (.Negative (-1000)) [] = ([0x39, 0x03, 0xE7], none) := by
  constructor
  · rw [write_nested_def]
    rw [show height (Value.Negative (-(n + 1) : Int)) + 1 = 0 + 1 from rfl]
    rw [encodeC_negative hd]
    have hmag : negMagnitude (-(n + 1) : Int) = n := by rw [negMagnitude]; omega
    rw [hmag, start_item_eq buf 1 n (by omega)]
  · decide

/-- C5 witness at `n = 999` (semantic −1000) with the default depth. -/
theorem claim_C5_witness :
    write_nested (.Negative (-(999 + 1) : Int)) [] (some 127)
      = ([] ++ headerBytes 1 999, none)
    ∧ write (.Negative (-1000)) [] = ([0x39, 0x03, 0xE7], none) :=
  claim_C5 999 (some 127) [] (by decide) (by decide)

/-- C6: `ByteString b` encodes as `header(2, |b|)` followed by the bytes of
`b` verbatim; `TextString s` (already UTF-8 bytes) encodes as
`header(3, |s|)` followed by those bytes verbatim, with no re-validation or
transcoding. -/
theorem claim_C6 (b s : List Nat) (d : Option Int) (buf buf2 : List Nat)
    (hd : depthExceeded d = false) :
    write_nested (.ByteString b) buf d = (buf ++ headerBytes 2 b.length ++ b, none)
    ∧ write_nested (.TextString s) buf2 d = (buf2 ++ headerBytes 3 s.length ++ s, none) := by
  constructor
  · rw [write_nested_def]
    rw [show height (Value.ByteString b) + 1 = 0 + 1 from rfl]
    rw [encodeC_bytes hd, start_item_eq buf 2 b.length (by omega), List.append_assoc]
  · rw [write_nested_def]
    rw [show height (Value.TextString s) + 1 = 0 + 1 from rfl]
    rw [encodeC_text hd, start_item_eq buf2 3 s.length (by omega), List.append_assoc]

/-- C6 witness: the byte string `01 02 03 04` and the text "IETF". -/
theorem claim_C6_witness :
    write_nested (.ByteString [1, 2, 3, 4]) [] (some 127)
      = ([] ++ headerBytes 2 [1, 2, 3, 4].length ++ [1, 2, 3, 4], none)
    ∧ write_nested (.TextString [0x49, 0x45, 0x54, 0x46]) [] (some 127)
      = ([] ++ headerBytes 3 [0x49, 0x45, 0x54, 0x46].length ++ [0x49, 0x45, 0x54, 0x46],
          none) :=
  claim_C6 [1, 2, 3, 4] [0x49, 0x45, 0x54, 0x46] (some 127) [] [] (by decide)

/-- C7: the default entry point `write` behaves exactly like `write_nested`
with the explicit limit 127 (`i8::MAX`), for every value and buffer. -/
theorem claim_C7 (v : Value) (buf : List Nat) :
    write v buf = write_nested v buf (some 127) := rfl

/-- C8: every encode call only appends: the initial buffer contents are a
prefix of the final buffer contents, whether the call succeeds or fails. -/
theorem claim_C8 (v : Value) (d : Option Int) (buf : List Nat) :
    buf <+: (write_nested v buf d).1 := by
  rw [write_nested_def, encodeC_frame]
  exact List.prefix_append buf _

/-- C9: with no depth limit the encoder never reports `TooMuchNesting`: the
result is `Ok` unless some map in the value has duplicate encoded keys, in
which case it is `DuplicateMapKey`. -/
theorem claim_C9 (v : Value) (buf : List Nat) :
    (write_nested v buf none).2
      = if hasDup v then some EncoderError.DuplicateMapKey else none := by
  rw [write_nested_def]
  cases hv : hasDup v with
  | false =>
    simp only [hv, Bool.false_eq_true, if_false]
    exact encodeC_ok (height v + 1) v none buf (by omega) hv (fun L hL => by cases hL)
  | true =>
    simp only [hv, if_true]
    exact encodeC_dup (height v + 1) v buf (by omega) hv

/-- C1: for maps whose keys all encode successfully to pairwise-distinct
byte sequences, encoding is invariant under any permutation of the pairs,
and on success the output is the map header followed by the pairs sorted by
lexicographic (unsigned byte-wise) comparison of the keys' encoded bytes. -/
theorem claim_C1 (pairs pairs' : List (Value × Value)) (d : Option Int) (buf : List Nat)
    (hperm : pairs.Perm pairs')
    (hok : ∀ p ∈ pairs, (write_nested p.1 [] (decDepth d)).2 = none)
    (hnd : (pairs.map fun p => canonBytes p.1).Nodup) :
    write_nested (.Map pairs) buf d = write_nested (.Map pairs') buf d
    ∧ (depthExceeded d = false → (write_nested (.Map pairs) buf d).2 = none →
      ∃ sp : List (List Nat × Value),
        (pairs.map fun p => (canonBytes p.1, p.2)).Perm sp
        ∧ List.Pairwise (fun a b : List Nat × Value => lexLe a.1 b.1 = true) sp
        ∧ (write_nested (.Map pairs) buf d).1
            = buf ++ headerBytes 5 pairs.length
                ++ (sp.map fun q => q.1 ++ canonBytes q.2).flatten) :=
  ⟨write_map_perm hperm hok hnd, fun hd hs => write_map_sorted_emit hd hok hnd hs⟩

/-- C1 witness: the map `{0: "a", -1: "b"}` against its two insertion
orders. -/
theorem claim_C1_witness :
    write_nested (.Map [(.Unsigned 0, .TextString [97]), (.Negative (-1), .TextString [98])])
        [] (some 127)
      = write_nested (.Map [(.Negative (-1), .TextString [98]),
          (.Unsigned 0, .TextString [97])]) [] (some 127)
    ∧ (depthExceeded (some 127) = false →
      (write_nested (.Map [(.Unsigned 0, .TextString [97]),
          (.Negative (-1), .TextString [98])]) [] (some 127)).2 = none →
      ∃ sp : List (List Nat × Value),
        ([(.Unsigned 0, .TextString [97]),
            ((Value.Negative (-1) : Value), (Value.TextString [98] : Value))].map
          fun p => (canonBytes p.1, p.2)).Perm sp
        ∧ List.Pairwise (fun a b : List Nat × Value => lexLe a.1 b.1 = true) sp
        ∧ (write_nested (.Map [(.Unsigned 0, .TextString [97]),
            (.Negative (-1), .TextString [98])]) [] (some 127)).1
            = [] ++ headerBytes 5 [(.Unsigned 0, .TextString [97]),
                ((Value.Negative (-1) : Value), (Value.TextString [98] : Value))].length
                ++ (sp.map fun q => q.1 ++ canonBytes q.2).flatten) :=
  claim_C1 [(.Unsigned 0, .TextString [97]), (.Negative (-1), .TextString [98])]
    [(.Negative (-1), .TextString [98]), (.Unsigned 0, .TextString [97])]
    (some 127) [] (List.Perm.swap _ _ _) (by decide) (by decide)

/-- C3 counterexample: the claimed equivalence is an "if and only if", but a
map can fail with `DuplicateMapKey` although no two of *its own* pairs have
keys with identical encodings: here the single-pair map
`{0: {0:0, 0:1}}` has one key (so no two keys collide) that encodes fine
within the budget, yet encoding fails with `DuplicateMapKey` because the
nested map in its *value* has duplicate keys. -/
theorem claim_C3_counterexample :
    (write_nested (Value.Unsigned 0) [] (decDepth (some 127))).2 = none
    ∧ ([((Value.Unsigned 0 : Value),
          (Value.Map [(.Unsigned 0, .Unsigned 0), (.Unsigned 0, .Unsigned 1)] : Value))].map
        fun p => canonBytes p.1).Nodup
    ∧ (write (.Map [(.Unsigned 0,
          .Map [(.Unsigned 0, .Unsigned 0), (.Unsigned 0, .Unsigned 1)])]) []).2
        = some .DuplicateMapKey := by decide

/-- C3 (amended): assuming every key encodes successfully within the depth
budget: if two pairs' keys encode to identical byte sequences, the map fails
with `DuplicateMapKey`; the converse direction holds under the additional
assumption (forced by the counterexample) that no map nested anywhere inside
the keys or values of this map has duplicate encoded keys: then encoding
never fails with `DuplicateMapKey`. -/
theorem claim_C3 (pairs : List (Value × Value)) (d : Option Int) (buf : List Nat)
    (hd : depthExceeded d = false)
    (hok : ∀ p ∈ pairs, (write_nested p.1 [] (decDepth d)).2 = none) :
    (¬ (pairs.map fun p => canonBytes p.1).Nodup →
      (write_nested (.Map pairs) buf d).2 = some .DuplicateMapKey)
    ∧ (hasDup (.Map pairs) = false →
      (write_nested (.Map pairs) buf d).2 ≠ some .DuplicateMapKey) := by
  constructor
  · intro hnd
    rw [write_map_collision hd hok hnd]
  · intro hdup
    cases d with
    | none =>
      rw [write_nested_def]
      rw [encodeC_ok (height (.Map pairs) + 1) (.Map pairs) none buf (by omega) hdup
        (fun L hL => by cases hL)]
      exact Option.noConfusion
    | some L =>
      by_cases hL : (height (Value.Map pairs) : Int) ≤ L
      · rw [write_nested_def]
        rw [encodeC_ok (height (.Map pairs) + 1) (.Map pairs) (some L) buf (by omega) hdup
          (fun L' hL' => by cases hL'; exact hL)]
        exact Option.noConfusion
      · rw [write_nested_def]
        rw [encodeC_tooDeep (height (.Map pairs) + 1) (.Map pairs) L buf (by omega) hdup
          (by omega)]
        intro hc
        cases hc

/-- C3 witness: the map `{0: "a", 0: "b"}` (a genuine key collision, keys
encoding fine) under the default limit. -/
theorem claim_C3_witness :
    (¬ ([((Value.Unsigned 0 : Value), (Value.TextString [97] : Value)),
          (.Unsigned 0, .TextString [98])].map fun p => canonBytes p.1).Nodup →
      (write_nested (.Map [(.Unsigned 0, .TextString [97]),
          (.Unsigned 0, .TextString [98])]) [] (some 127)).2 = some .DuplicateMapKey)
    ∧ (hasDup (.Map [(.Unsigned 0, .TextString [97]), (.Unsigned 0, .TextString [98])])
        = false →
      (write_nested (.Map [(.Unsigned 0, .TextString [97]),
          (.Unsigned 0, .TextString [98])]) [] (some 127)).2 ≠ some .DuplicateMapKey) :=
  claim_C3 [(.Unsigned 0, .TextString [97]), (.Unsigned 0, .TextString [98])]
    (some 127) [] (by decide) (by decide)

/-- C10: a map whose keys all encode successfully but where two keys encode
to the same bytes fails with `DuplicateMapKey` and appends nothing at all to
the output buffer — the keys were encoded into temporary buffers and the
duplicate check runs before the map header is emitted. -/
theorem claim_C10 (pairs : List (Value × Value)) (d : Option Int) (buf : List Nat)
    (hd : depthExceeded d = false)
    (hok : ∀ p ∈ pairs, (write_nested p.1 [] (decDepth d)).2 = none)
    (hnd : ¬ (pairs.map fun p => canonBytes p.1).Nodup) :
    write_nested (.Map pairs) buf d = (buf, some .DuplicateMapKey) :=
  write_map_collision hd hok hnd

/-- C10 witness: `{0: "a", 0: "b"}` with a non-empty initial buffer, showing
the buffer is returned unchanged. -/
theorem claim_C10_witness :
    write_nested (.Map [(.Unsigned 0, .TextString [97]), (.Unsigned 0, .TextString [98])])
        [7, 7] (some 127)
      = ([7, 7], some .DuplicateMapKey) :=
  claim_C10 [(.Unsigned 0, .TextString [97]), (.Unsigned 0, .TextString [98])]
    (some 127) [7, 7] (by decide) (by decide) (by decide)

end OasisCbor
